import Mathlib

/-!
# `seqlen` of `examples/include/fasta_faidx.c`

A shallow embedding of the line-consistency scan `seqlen(str, firstlen)`:
one pass over the bytes of `str` with five `uint32_t` counters, followed by
the single end-of-scan decrement of `errcnt`.  The result is the pair
`[seqlen, errcnt]` pushed onto the returned array.

Two facts of the C source are kept explicit.  The bytes are read through a
`const char *`, so the comparison `*str > ' '` depends on whether plain `char`
is signed (`signedChar`).  The string size, `firstlen` and the five counters are
`uint32_t`: `seqlen` reduces them modulo `2^32`, and the statements about whole
buffers are made for buffers shorter than `2^32` bytes, where `seqlen_eq_seqlenN`
shows that no counter wraps.
-/

set_option autoImplicit false
set_option maxRecDepth 8000

namespace FastaFaidx

/-! ## Data model -/

/-- One byte of the string buffer. -/
abbrev Byte := Fin 256

/-- The line terminator `'\n'`. -/
def NL : Byte := 10

/-- The carriage return `'\r'`. -/
def CR : Byte := 13

/-- The value of `*str` in a comparison.  `str` is a `const char *`, and whether
plain `char` is signed is fixed by the C implementation (`signedChar`): where it
is signed, the bytes 128..255 read as the negative values -128..-1. -/
def charVal (signedChar : Bool) (ch : Byte) : Int :=
  if signedChar && decide (128 ≤ ch.val) then (ch.val : Int) - 256 else (ch.val : Int)

/-- Number of values of a `uint32_t`. -/
def U32 : Nat := 4294967296

/-- Reduction of a result to `uint32_t`. -/
def wrap (n : Nat) : Nat := n % U32

/-- The local counters `lastline, linelen, seqlen, blank, errcnt`. -/
structure Counters where
  lastline : Nat
  linelen : Nat
  seqlen : Nat
  blank : Nat
  errcnt : Nat
deriving DecidableEq

/-- The counters after `lastline = linelen = seqlen = blank = errcnt = 0`. -/
def Counters.zero : Counters := ⟨0, 0, 0, 0, 0⟩

/-- One execution of the body of `while (strsize--)` on the byte `*str`. -/
def body (signedChar : Bool) (firstlen : Nat) (c : Counters) (ch : Byte) : Counters :=
  let linelen := wrap (c.linelen + 1)
  if charVal signedChar ch > 32 then
    { c with linelen := linelen, seqlen := wrap (c.seqlen + 1) }
  else if charVal signedChar ch = 13 then
    { c with linelen := wrap (linelen + (U32 - 1)) }
  else if charVal signedChar ch = 10 then
    if linelen = 1 then
      { c with blank := wrap (c.blank + 1), linelen := 0 }
    else if c.blank ≠ 0 ∧ linelen > 1 then
      { c with errcnt := wrap (c.errcnt + 1), linelen := 0 }
    else if linelen ≠ firstlen then
      { c with errcnt := wrap (c.errcnt + 1), lastline := 1, linelen := 0 }
    else
      { c with lastline := 0, linelen := 0 }
  else
    { c with linelen := linelen }

/-- The loop `while (strsize--) { ...; str++; }`: `strsize` iterations, each
consuming the byte under `str`. -/
def scanLoop (signedChar : Bool) (firstlen : Nat) : Nat → List Byte → Counters → Counters
  | 0, _, c => c
  | _ + 1, [], c => c
  | strsize + 1, ch :: str, c => scanLoop signedChar firstlen strsize str (body signedChar firstlen c ch)

/-- The end-of-scan statement `if (lastline == 1 && errcnt == 1) errcnt--;`. -/
def forgive (c : Counters) : Nat :=
  if c.lastline = 1 ∧ c.errcnt = 1 then wrap (c.errcnt + (U32 - 1)) else c.errcnt

/-- The function `seqlen(str_sv, firstlen_sv)`: `firstlen` and the string size
are stored in `uint32_t` variables, the loop runs, and the result is
`[seqlen, errcnt]`. -/
def seqlen (signedChar : Bool) (str : List Byte) (firstlen : Nat) : Nat × Nat :=
  let firstlen32 := wrap firstlen
  let strsize := wrap str.length
  let c := scanLoop signedChar firstlen32 strsize str Counters.zero
  (c.seqlen, forgive c)

/-! ## The same scan with unbounded counters -/

/-- The loop body with every counter an unbounded natural number: the statements
of `body`, without the reduction to `uint32_t`. -/
def bodyN (signedChar : Bool) (firstlen : Nat) (c : Counters) (ch : Byte) : Counters :=
  let linelen := c.linelen + 1
  if charVal signedChar ch > 32 then
    { c with linelen := linelen, seqlen := c.seqlen + 1 }
  else if charVal signedChar ch = 13 then
    { c with linelen := linelen - 1 }
  else if charVal signedChar ch = 10 then
    if linelen = 1 then
      { c with blank := c.blank + 1, linelen := 0 }
    else if c.blank ≠ 0 ∧ linelen > 1 then
      { c with errcnt := c.errcnt + 1, linelen := 0 }
    else if linelen ≠ firstlen then
      { c with errcnt := c.errcnt + 1, lastline := 1, linelen := 0 }
    else
      { c with lastline := 0, linelen := 0 }
  else
    { c with linelen := linelen }

/-- The loop over a whole buffer with unbounded counters. -/
def runN (signedChar : Bool) (firstlen : Nat) (c : Counters) (str : List Byte) : Counters :=
  str.foldl (bodyN signedChar firstlen) c

/-- The end-of-scan decrement with unbounded counters. -/
def forgiveN (c : Counters) : Nat :=
  if c.lastline = 1 ∧ c.errcnt = 1 then c.errcnt - 1 else c.errcnt

/-- The result pair computed with unbounded natural-number arithmetic. -/
def seqlenN (signedChar : Bool) (str : List Byte) (firstlen : Nat) : Nat × Nat :=
  let c := runN signedChar firstlen Counters.zero str
  (c.seqlen, forgiveN c)

/-- Closing a line: the `'\n'` branch of the loop body, for a line that had
`c.linelen` counted bytes. -/
def closeLine (firstlen : Nat) (c : Counters) : Counters :=
  if c.linelen = 0 then { c with blank := c.blank + 1, linelen := 0 }
  else if c.blank ≠ 0 then { c with errcnt := c.errcnt + 1, linelen := 0 }
  else if c.linelen + 1 ≠ firstlen then { c with errcnt := c.errcnt + 1, lastline := 1, linelen := 0 }
  else { c with lastline := 0, linelen := 0 }

/-- Every counter is at most `k`. -/
def Counters.Bounded (c : Counters) (k : Nat) : Prop :=
  c.linelen ≤ k ∧ c.seqlen ≤ k ∧ c.blank ≤ k ∧ c.errcnt ≤ k

/-! ## Line structure of a buffer -/

/-- A residue byte: the test `*str > ' '` of the loop body. -/
def isResidue (signedChar : Bool) (ch : Byte) : Bool := decide (charVal signedChar ch > 32)

/-- Number of residue bytes of a byte string. -/
def residues (signedChar : Bool) (str : List Byte) : Nat := str.countP (isResidue signedChar)

/-- Number of bytes of a line that are not carriage returns. -/
def content (line : List Byte) : Nat := line.countP (fun ch => decide (ch ≠ CR))

/-- Width of a terminated line as the scan measures it: its bytes other than
`'\r'`, plus one for the terminator. -/
def width (line : List Byte) : Nat := content line + 1

/-- A blank line: nothing but the terminator (carriage returns apart). -/
def isBlank (line : List Byte) : Bool := decide (width line = 1)

/-- Split a buffer at `'\n'`: the terminated lines (terminator removed), and the
unterminated rest after the last `'\n'`. -/
def splitNL : List Byte → List (List Byte) × List Byte
  | [] => ([], [])
  | ch :: str =>
    if ch = NL then ([] :: (splitNL str).1, (splitNL str).2)
    else
      match (splitNL str).1 with
      | [] => ([], ch :: (splitNL str).2)
      | l :: ls => ((ch :: l) :: ls, (splitNL str).2)

/-- The `'\n'`-terminated lines of a buffer, in order, without their terminators. -/
def termLines (str : List Byte) : List (List Byte) := (splitNL str).1

/-- The unterminated bytes after the last `'\n'` of a buffer. -/
def lastPart (str : List Byte) : List Byte := (splitNL str).2

/-- The buffer made of the given lines, each followed by `'\n'`. -/
def joinNL : List (List Byte) → List Byte
  | [] => []
  | l :: ls => l ++ NL :: joinNL ls

/-- The buffer is at a line start after `pre`: `pre` is empty or ends with `'\n'`. -/
def atLineStart (pre : List Byte) : Bool := decide (pre = []) || decide (pre.getLast? = some NL)

/-- Effect on the counters of one whole terminated line, read off its width:
the line's residues are added to `seqlen` and the `'\n'` branch is taken with
`linelen` equal to the width. -/
def lineStep (signedChar : Bool) (firstlen : Nat) (c : Counters) (line : List Byte) : Counters :=
  if width line = 1 then
    { c with blank := c.blank + 1, seqlen := c.seqlen + residues signedChar line, linelen := 0 }
  else if c.blank ≠ 0 then
    { c with errcnt := c.errcnt + 1, seqlen := c.seqlen + residues signedChar line, linelen := 0 }
  else if width line ≠ firstlen then
    { c with errcnt := c.errcnt + 1, lastline := 1,
             seqlen := c.seqlen + residues signedChar line, linelen := 0 }
  else
    { c with lastline := 0, seqlen := c.seqlen + residues signedChar line, linelen := 0 }

/-- A terminated line whose width differs from the expected one. -/
def isMismatch (firstlen : Nat) (line : List Byte) : Bool := decide (width line ≠ firstlen)

/-- A set `lastline` flag always comes with a recorded error. -/
def Counters.FlagOk (c : Counters) : Prop := c.lastline = 1 → 1 ≤ c.errcnt

/-! ## The counters at the end of the loop, and the loop with checked reads -/

/-- The counters when the loop of `seqlen` ends, before the end-of-scan decrement. -/
def scanCounters (signedChar : Bool) (str : List Byte) (firstlen : Nat) : Counters :=
  scanLoop signedChar (wrap firstlen) (wrap str.length) str Counters.zero

/-- A byte that is neither a residue, nor `'\r'`, nor `'\n'`: the last `else` of the
loop body is not entered by any branch for it. -/
def isOther (signedChar : Bool) (ch : Byte) : Bool :=
  !isResidue signedChar ch && decide (ch ≠ CR) && decide (ch ≠ NL)

/-! ## Line-level reference for the error count -/

/-- Reference, in the words of the specification: the terminated lines before the
first blank line. -/
def refBefore (lines : List (List Byte)) : List (List Byte) :=
  lines.takeWhile (fun l => !isBlank l)

/-- Reference, in the words of the specification: the terminated lines from the
first blank line on. -/
def refAfter (lines : List (List Byte)) : List (List Byte) :=
  lines.dropWhile (fun l => !isBlank l)

/-- Reference, in the words of the specification: the error count before the
forgiveness is the number of lines before the first blank line whose width differs
from the expected one, plus the number of non-blank lines after the first blank
line. -/
def refErrcntRaw (firstlen : Nat) (str : List Byte) : Nat :=
  (refBefore (termLines str)).countP (isMismatch firstlen)
    + (refAfter (termLines str)).countP (fun l => !isBlank l)

/-- Reference, in the words of the specification: the forgiveness flag is set when
there is a line before the first blank line and the last such line has a width
different from the expected one. -/
def refFlag (firstlen : Nat) (str : List Byte) : Bool :=
  match (refBefore (termLines str)).getLast? with
  | some l => isMismatch firstlen l
  | none => false

/-- Reference, in the words of the specification: the returned error count is the
count minus one if the flag is set and the count is 1, otherwise the count. -/
def refErrcnt (firstlen : Nat) (str : List Byte) : Nat :=
  if refFlag firstlen str = true ∧ refErrcntRaw firstlen str = 1
    then refErrcntRaw firstlen str - 1
    else refErrcntRaw firstlen str

/-! ## Byte classification -/

theorem charVal_eq_cr (signedChar : Bool) (ch : Byte) : charVal signedChar ch = 13 ↔ ch = CR := by
  have h := ch.isLt
  have e : ch = CR ↔ ch.val = 13 := by rw [Fin.ext_iff]; rfl
  rw [e]
  unfold charVal
  cases signedChar
  · simp only [Bool.false_and, Bool.false_eq_true, if_false]
    omega
  · simp only [Bool.true_and, decide_eq_true_eq]
    split_ifs <;> omega

theorem charVal_eq_nl (signedChar : Bool) (ch : Byte) : charVal signedChar ch = 10 ↔ ch = NL := by
  have h := ch.isLt
  have e : ch = NL ↔ ch.val = 10 := by rw [Fin.ext_iff]; rfl
  rw [e]
  unfold charVal
  cases signedChar
  · simp only [Bool.false_and, Bool.false_eq_true, if_false]
    omega
  · simp only [Bool.true_and, decide_eq_true_eq]
    split_ifs <;> omega

theorem isResidue_iff (signedChar : Bool) (ch : Byte) :
    isResidue signedChar ch = true ↔ charVal signedChar ch > 32 := by
  simp [isResidue]

theorem isResidue_unsigned (ch : Byte) : isResidue false ch = true ↔ 32 < ch.val := by
  simp [isResidue, charVal]

theorem isResidue_signed (ch : Byte) : isResidue true ch = true ↔ 32 < ch.val ∧ ch.val < 128 := by
  have h := ch.isLt
  simp only [isResidue, charVal, decide_eq_true_eq, Bool.true_and]
  split_ifs <;> omega

theorem not_isResidue_cr (signedChar : Bool) : isResidue signedChar CR = false := by
  cases signedChar <;> decide

theorem not_isResidue_nl (signedChar : Bool) : isResidue signedChar NL = false := by
  cases signedChar <;> decide

/-! ## The loop body by kind of byte (unbounded counters) -/

theorem bodyN_residue (signedChar : Bool) (firstlen : Nat) (c : Counters) (ch : Byte)
    (h : isResidue signedChar ch = true) :
    bodyN signedChar firstlen c ch = { c with linelen := c.linelen + 1, seqlen := c.seqlen + 1 } := by
  rw [isResidue_iff] at h
  simp [bodyN, h]

theorem bodyN_cr (signedChar : Bool) (firstlen : Nat) (c : Counters) :
    bodyN signedChar firstlen c CR = c := by
  have h1 : ¬ charVal signedChar CR > 32 := by cases signedChar <;> decide
  have h2 : charVal signedChar CR = 13 := by cases signedChar <;> decide
  simp [bodyN, h1, h2]

theorem bodyN_other (signedChar : Bool) (firstlen : Nat) (c : Counters) (ch : Byte)
    (h : isResidue signedChar ch = false) (hcr : ch ≠ CR) (hnl : ch ≠ NL) :
    bodyN signedChar firstlen c ch = { c with linelen := c.linelen + 1 } := by
  have h1 : ¬ charVal signedChar ch > 32 := by
    rw [← isResidue_iff]; simp [h]
  have h2 : ¬ charVal signedChar ch = 13 := by rw [charVal_eq_cr]; exact hcr
  have h3 : ¬ charVal signedChar ch = 10 := by rw [charVal_eq_nl]; exact hnl
  simp [bodyN, h1, h2, h3]

theorem bodyN_nl (signedChar : Bool) (firstlen : Nat) (c : Counters) :
    bodyN signedChar firstlen c NL = closeLine firstlen c := by
  have h3 : charVal signedChar NL = 10 := by cases signedChar <;> decide
  unfold bodyN closeLine
  rw [h3]
  by_cases h0 : c.linelen = 0
  · simp [h0]
  · have hp : 0 < c.linelen := Nat.pos_of_ne_zero h0
    by_cases hb : c.blank = 0
    · by_cases hf : c.linelen + 1 = firstlen
      · have h1 : firstlen ≠ 1 := by omega
        simp [h0, hb, hf, h1]
      · simp [h0, hb, hf]
    · simp [h0, hb, hp]

/-! ## The `uint32_t` counters do not wrap on a buffer shorter than `2^32` -/

theorem forgive_eq_forgiveN (c : Counters) : forgive c = forgiveN c := by
  unfold forgive forgiveN
  split_ifs with h
  · rw [h.2]; rfl
  · rfl

theorem body_eq_bodyN (signedChar : Bool) (firstlen : Nat) (c : Counters) (ch : Byte) (k : Nat)
    (hb : c.Bounded k) (hk : k + 1 < U32) :
    body signedChar firstlen c ch = bodyN signedChar firstlen c ch := by
  obtain ⟨h1, h2, h3, h4⟩ := hb
  have e1 : wrap (c.linelen + 1) = c.linelen + 1 := Nat.mod_eq_of_lt (by omega)
  have e2 : wrap (c.seqlen + 1) = c.seqlen + 1 := Nat.mod_eq_of_lt (by omega)
  have e3 : wrap (c.blank + 1) = c.blank + 1 := Nat.mod_eq_of_lt (by omega)
  have e4 : wrap (c.errcnt + 1) = c.errcnt + 1 := Nat.mod_eq_of_lt (by omega)
  have e5 : wrap (c.linelen + 1 + (U32 - 1)) = c.linelen + 1 - 1 := by
    unfold wrap
    unfold U32 at hk ⊢
    omega
  unfold body bodyN
  simp only [e1, e2, e3, e4, e5]

theorem bodyN_bounded (signedChar : Bool) (firstlen : Nat) (c : Counters) (ch : Byte) (k : Nat)
    (hb : c.Bounded k) : (bodyN signedChar firstlen c ch).Bounded (k + 1) := by
  obtain ⟨h1, h2, h3, h4⟩ := hb
  unfold bodyN Counters.Bounded
  dsimp only
  split_ifs <;> dsimp only <;> omega

theorem scanLoop_eq_runN (signedChar : Bool) (firstlen : Nat) (str : List Byte) :
    ∀ (c : Counters) (k : Nat), c.Bounded k → k + str.length < U32 →
      scanLoop signedChar firstlen str.length str c = runN signedChar firstlen c str := by
  induction str with
  | nil => intro c k _ _; rfl
  | cons ch str ih =>
    intro c k hb hk
    simp only [List.length_cons] at hk
    have hstep := body_eq_bodyN signedChar firstlen c ch k hb (by omega)
    simp only [List.length_cons, scanLoop, runN, List.foldl_cons]
    rw [hstep]
    exact ih _ (k + 1) (bodyN_bounded signedChar firstlen c ch k hb) (by omega)

theorem seqlen_eq_seqlenN (signedChar : Bool) (str : List Byte) (firstlen : Nat)
    (hsize : str.length < U32) :
    seqlen signedChar str firstlen = seqlenN signedChar str (wrap firstlen) := by
  have hz : Counters.zero.Bounded 0 := by simp [Counters.Bounded, Counters.zero]
  have hlen : wrap str.length = str.length := Nat.mod_eq_of_lt hsize
  unfold seqlen seqlenN
  simp only [hlen]
  rw [scanLoop_eq_runN signedChar (wrap firstlen) str Counters.zero 0 hz (by omega),
    forgive_eq_forgiveN]

theorem wrap_of_lt (n : Nat) (h : n < U32) : wrap n = n := Nat.mod_eq_of_lt h

/-! ## The scan, line by line -/

theorem runN_nil (signedChar : Bool) (firstlen : Nat) (c : Counters) :
    runN signedChar firstlen c [] = c := rfl

theorem runN_cons (signedChar : Bool) (firstlen : Nat) (c : Counters) (ch : Byte) (str : List Byte) :
    runN signedChar firstlen c (ch :: str)
      = runN signedChar firstlen (bodyN signedChar firstlen c ch) str := rfl

theorem runN_append (signedChar : Bool) (firstlen : Nat) (c : Counters) (a b : List Byte) :
    runN signedChar firstlen c (a ++ b)
      = runN signedChar firstlen (runN signedChar firstlen c a) b := by
  simp [runN, List.foldl_append]

theorem residues_cons (signedChar : Bool) (ch : Byte) (str : List Byte) :
    residues signedChar (ch :: str)
      = residues signedChar str + (if isResidue signedChar ch = true then 1 else 0) := by
  simp [residues, List.countP_cons]

theorem residues_append (signedChar : Bool) (a b : List Byte) :
    residues signedChar (a ++ b) = residues signedChar a + residues signedChar b := by
  simp [residues, List.countP_append]

theorem content_cons (ch : Byte) (str : List Byte) :
    content (ch :: str) = content str + (if ch = CR then 0 else 1) := by
  by_cases h : ch = CR <;> simp [content, List.countP_cons, h]

/-- Over bytes without a line terminator only `linelen` and `seqlen` move. -/
theorem runN_line (signedChar : Bool) (firstlen : Nat) (line : List Byte) :
    ∀ c : Counters, (∀ ch ∈ line, ch ≠ NL) →
      runN signedChar firstlen c line
        = { c with linelen := c.linelen + content line,
                   seqlen := c.seqlen + residues signedChar line } := by
  induction line with
  | nil => intro c _; simp [runN, content, residues]
  | cons ch line ih =>
    intro c h
    have hnl : ch ≠ NL := h ch (List.mem_cons_self _ _)
    have hrest : ∀ x ∈ line, x ≠ NL := fun x hx => h x (List.mem_cons_of_mem _ hx)
    rw [runN_cons, ih _ hrest, residues_cons, content_cons]
    by_cases hr : isResidue signedChar ch = true
    · have hcr : ch ≠ CR := by
        intro e; rw [e, not_isResidue_cr] at hr; exact Bool.noConfusion hr
      rw [bodyN_residue signedChar firstlen c ch hr]
      simp only [hr, hcr, if_true, if_false, Counters.mk.injEq]
      refine ⟨trivial, ?_, ?_, trivial, trivial⟩ <;> omega
    · have hr2 : isResidue signedChar ch = false := by simpa using hr
      by_cases hcr : ch = CR
      · rw [hcr, bodyN_cr]
        simp [not_isResidue_cr]
      · rw [bodyN_other signedChar firstlen c ch hr2 hcr hnl]
        simp only [hr2, hcr, if_false, Counters.mk.injEq, Bool.false_eq_true]
        refine ⟨trivial, ?_, ?_, trivial, trivial⟩ <;> omega

/-- A whole terminated line, started with `linelen = 0`, acts as `lineStep`. -/
theorem runN_line_nl (signedChar : Bool) (firstlen : Nat) (c : Counters) (line : List Byte)
    (h0 : c.linelen = 0) (hline : ∀ ch ∈ line, ch ≠ NL) :
    runN signedChar firstlen c (line ++ [NL]) = lineStep signedChar firstlen c line := by
  rw [runN_append, runN_line signedChar firstlen line c hline, runN_cons, runN_nil, bodyN_nl]
  unfold closeLine lineStep width
  simp only [h0, Nat.zero_add]
  by_cases hc : content line = 0
  · simp [hc]
  · by_cases hb : c.blank = 0
    · by_cases hf : content line + 1 = firstlen
      · have h1 : firstlen ≠ 1 := by omega
        simp [hc, hb, hf, h1]
      · simp [hc, hb, hf]
    · simp [hc, hb]

theorem lineStep_linelen (signedChar : Bool) (firstlen : Nat) (c : Counters) (line : List Byte) :
    (lineStep signedChar firstlen c line).linelen = 0 := by
  unfold lineStep
  split_ifs <;> rfl

theorem joinNL_cons (l : List Byte) (ls : List (List Byte)) :
    joinNL (l :: ls) = (l ++ [NL]) ++ joinNL ls := by
  simp [joinNL]

theorem joinNL_append (ls ms : List (List Byte)) :
    joinNL (ls ++ ms) = joinNL ls ++ joinNL ms := by
  induction ls with
  | nil => rfl
  | cons l ls ih => simp [joinNL, ih]

/-- The scan of a sequence of whole lines is the fold of `lineStep` over them. -/
theorem runN_joinNL (signedChar : Bool) (firstlen : Nat) (lines : List (List Byte)) :
    ∀ c : Counters, c.linelen = 0 → (∀ l ∈ lines, ∀ ch ∈ l, ch ≠ NL) →
      runN signedChar firstlen c (joinNL lines)
        = lines.foldl (lineStep signedChar firstlen) c := by
  induction lines with
  | nil => intro c _ _; rfl
  | cons l ls ih =>
    intro c h0 h
    rw [joinNL_cons, runN_append,
      runN_line_nl signedChar firstlen c l h0 (h l (List.mem_cons_self _ _)), List.foldl_cons]
    exact ih _ (lineStep_linelen _ _ _ _) (fun m hm => h m (List.mem_cons_of_mem _ hm))

theorem foldl_lineStep_linelen (signedChar : Bool) (firstlen : Nat) (lines : List (List Byte)) :
    ∀ c : Counters, c.linelen = 0 →
      (lines.foldl (lineStep signedChar firstlen) c).linelen = 0 := by
  induction lines with
  | nil => intro c h; exact h
  | cons l ls ih => intro c _; exact ih _ (lineStep_linelen _ _ _ _)

/-- Splitting at `'\n'` loses nothing: the buffer is its terminated lines followed
by its unterminated rest, and none of the pieces contains a `'\n'`. -/
theorem splitNL_spec (str : List Byte) :
    joinNL (termLines str) ++ lastPart str = str
      ∧ (∀ l ∈ termLines str, ∀ ch ∈ l, ch ≠ NL)
      ∧ (∀ ch ∈ lastPart str, ch ≠ NL) := by
  unfold termLines lastPart
  induction str with
  | nil => simp [splitNL, joinNL]
  | cons ch str ih =>
    obtain ⟨h1, h2, h3⟩ := ih
    by_cases hnl : ch = NL
    · simp only [splitNL, hnl, if_true]
      refine ⟨?_, ?_, h3⟩
      · simp only [joinNL, List.nil_append, List.cons_append, h1]
      · intro l hl
        rcases List.mem_cons.1 hl with e | hl
        · rw [e]; intro x hx; cases hx
        · exact h2 l hl
    · simp only [splitNL, hnl, if_false]
      cases hs : (splitNL str).1 with
      | nil =>
        rw [hs] at h1
        simp only [joinNL, List.nil_append] at h1
        refine ⟨?_, ?_, ?_⟩
        · simp only [joinNL, List.nil_append, h1]
        · intro l hl; cases hl
        · intro x hx
          rcases List.mem_cons.1 hx with e | hx
          · rw [e]; exact hnl
          · exact h3 x hx
      | cons l ls =>
        rw [hs] at h1 h2
        refine ⟨?_, ?_, h3⟩
        · simp only [joinNL, List.cons_append] at h1 ⊢
          rw [h1]
        · intro m hm
          rcases List.mem_cons.1 hm with e | hm
          · rw [e]
            intro x hx
            rcases List.mem_cons.1 hx with e2 | hx
            · rw [e2]; exact hnl
            · exact h2 l (List.mem_cons_self _ _) x hx
          · exact h2 m (List.mem_cons_of_mem _ hm)

/-! ## Residue count -/

theorem bodyN_seqlen (signedChar : Bool) (firstlen : Nat) (c : Counters) (ch : Byte) :
    (bodyN signedChar firstlen c ch).seqlen
      = c.seqlen + (if isResidue signedChar ch = true then 1 else 0) := by
  by_cases hr : isResidue signedChar ch = true
  · rw [bodyN_residue signedChar firstlen c ch hr]; simp [hr]
  · have hr2 : isResidue signedChar ch = false := by simpa using hr
    by_cases hcr : ch = CR
    · rw [hcr, bodyN_cr]; simp [not_isResidue_cr]
    · by_cases hnl : ch = NL
      · rw [hnl, bodyN_nl]
        unfold closeLine
        simp only [not_isResidue_nl, Bool.false_eq_true, if_false, Nat.add_zero]
        split_ifs <;> rfl
      · rw [bodyN_other signedChar firstlen c ch hr2 hcr hnl]; simp [hr2]

theorem runN_seqlen (signedChar : Bool) (firstlen : Nat) (str : List Byte) :
    ∀ c : Counters, (runN signedChar firstlen c str).seqlen = c.seqlen + residues signedChar str := by
  induction str with
  | nil => intro c; simp [runN, residues]
  | cons ch str ih =>
    intro c
    rw [runN_cons, ih, bodyN_seqlen, residues_cons]
    omega

theorem seqlenN_fst (signedChar : Bool) (str : List Byte) (firstlen : Nat) :
    (seqlenN signedChar str firstlen).1 = residues signedChar str := by
  simp [seqlenN, runN_seqlen, Counters.zero]

/-! ## The whole scan through the lines of the buffer -/

/-- The counters at the end of the loop, in terms of the lines of the buffer. -/
theorem runN_lines (signedChar : Bool) (firstlen : Nat) (lines : List (List Byte))
    (rest : List Byte) (c : Counters) (h0 : c.linelen = 0)
    (hlines : ∀ l ∈ lines, ∀ ch ∈ l, ch ≠ NL) (hrest : ∀ ch ∈ rest, ch ≠ NL) :
    runN signedChar firstlen c (joinNL lines ++ rest)
      = { lines.foldl (lineStep signedChar firstlen) c with
            linelen := content rest,
            seqlen := (lines.foldl (lineStep signedChar firstlen) c).seqlen
                        + residues signedChar rest } := by
  rw [runN_append, runN_joinNL signedChar firstlen lines c h0 hlines,
    runN_line signedChar firstlen rest _ hrest,
    foldl_lineStep_linelen signedChar firstlen lines c h0, Nat.zero_add]

theorem forgiveN_eq (c d : Counters) (h1 : c.lastline = d.lastline) (h2 : c.errcnt = d.errcnt) :
    forgiveN c = forgiveN d := by
  unfold forgiveN
  rw [h1, h2]

/-- The returned error count depends on the terminated lines only. -/
theorem seqlenN_snd_joinNL (signedChar : Bool) (firstlen : Nat) (lines : List (List Byte))
    (rest : List Byte)
    (hlines : ∀ l ∈ lines, ∀ ch ∈ l, ch ≠ NL) (hrest : ∀ ch ∈ rest, ch ≠ NL) :
    (seqlenN signedChar (joinNL lines ++ rest) firstlen).2
      = forgiveN (lines.foldl (lineStep signedChar firstlen) Counters.zero) := by
  unfold seqlenN
  dsimp only
  rw [runN_lines signedChar firstlen lines rest Counters.zero rfl hlines hrest]
  exact forgiveN_eq _ _ rfl rfl

theorem seqlenN_snd (signedChar : Bool) (firstlen : Nat) (str : List Byte) :
    (seqlenN signedChar str firstlen).2
      = forgiveN ((termLines str).foldl (lineStep signedChar firstlen) Counters.zero) := by
  obtain ⟨h1, h2, h3⟩ := splitNL_spec str
  have h := seqlenN_snd_joinNL signedChar firstlen (termLines str) (lastPart str) h2 h3
  rw [h1] at h
  exact h

/-! ## Counting errors over lines -/

theorem width_pos (line : List Byte) : 1 ≤ width line := by
  unfold width; omega

theorem isBlank_false_iff (line : List Byte) : isBlank line = false ↔ width line ≠ 1 := by
  simp [isBlank]

theorem isBlank_true_iff (line : List Byte) : isBlank line = true ↔ width line = 1 := by
  simp [isBlank]

theorem lineStep_blank (signedChar : Bool) (firstlen : Nat) (c : Counters) (l : List Byte)
    (hl : width l = 1) :
    lineStep signedChar firstlen c l
      = { c with blank := c.blank + 1, seqlen := c.seqlen + residues signedChar l,
                 linelen := 0 } := by
  unfold lineStep; rw [if_pos hl]

theorem lineStep_after_blank (signedChar : Bool) (firstlen : Nat) (c : Counters) (l : List Byte)
    (hl : width l ≠ 1) (hb : c.blank ≠ 0) :
    lineStep signedChar firstlen c l
      = { c with errcnt := c.errcnt + 1, seqlen := c.seqlen + residues signedChar l,
                 linelen := 0 } := by
  unfold lineStep; rw [if_neg hl, if_pos hb]

theorem lineStep_mismatch (signedChar : Bool) (firstlen : Nat) (c : Counters) (l : List Byte)
    (hl : width l ≠ 1) (hb : c.blank = 0) (hf : width l ≠ firstlen) :
    lineStep signedChar firstlen c l
      = { c with errcnt := c.errcnt + 1, lastline := 1,
                 seqlen := c.seqlen + residues signedChar l, linelen := 0 } := by
  unfold lineStep; rw [if_neg hl, if_neg (not_not.2 hb), if_pos hf]

theorem lineStep_match (signedChar : Bool) (firstlen : Nat) (c : Counters) (l : List Byte)
    (hl : width l ≠ 1) (hb : c.blank = 0) (hf : width l = firstlen) :
    lineStep signedChar firstlen c l
      = { c with lastline := 0, seqlen := c.seqlen + residues signedChar l, linelen := 0 } := by
  unfold lineStep; rw [if_neg hl, if_neg (not_not.2 hb), if_neg (not_not.2 hf)]

/-- While no blank line has been seen, a run of non-blank lines adds one error
per mismatching line and leaves `blank` at zero. -/
theorem foldl_noblank (signedChar : Bool) (firstlen : Nat) (lines : List (List Byte)) :
    ∀ c : Counters, c.blank = 0 → (∀ l ∈ lines, isBlank l = false) →
      (lines.foldl (lineStep signedChar firstlen) c).errcnt
          = c.errcnt + lines.countP (isMismatch firstlen)
        ∧ (lines.foldl (lineStep signedChar firstlen) c).blank = 0 := by
  induction lines with
  | nil => intro c hb _; simp [hb]
  | cons l ls ih =>
    intro c hb h
    have hl : width l ≠ 1 := (isBlank_false_iff l).1 (h l (List.mem_cons_self _ _))
    have hrest : ∀ m ∈ ls, isBlank m = false := fun m hm => h m (List.mem_cons_of_mem _ hm)
    rw [List.foldl_cons, List.countP_cons]
    by_cases hf : width l = firstlen
    · have hstep := lineStep_match signedChar firstlen c l hl hb hf
      obtain ⟨e1, e2⟩ := ih (lineStep signedChar firstlen c l) (by rw [hstep]; exact hb) hrest
      rw [e1, e2, hstep]
      simp [isMismatch, hf]
    · have hstep := lineStep_mismatch signedChar firstlen c l hl hb hf
      obtain ⟨e1, e2⟩ := ih (lineStep signedChar firstlen c l) (by rw [hstep]; exact hb) hrest
      rw [e1, e2, hstep]
      simp only [isMismatch, hf, ne_eq, not_false_eq_true, decide_True, if_true, and_true]
      omega

/-- Once a blank line has been seen, every later non-blank line adds one error,
whatever its width, blank lines add none, and `lastline` no longer changes. -/
theorem foldl_blank (signedChar : Bool) (firstlen : Nat) (lines : List (List Byte)) :
    ∀ c : Counters, c.blank ≠ 0 →
      (lines.foldl (lineStep signedChar firstlen) c).errcnt
          = c.errcnt + lines.countP (fun l => !isBlank l)
        ∧ (lines.foldl (lineStep signedChar firstlen) c).lastline = c.lastline
        ∧ (lines.foldl (lineStep signedChar firstlen) c).blank ≠ 0 := by
  induction lines with
  | nil => intro c hb; simp [hb]
  | cons l ls ih =>
    intro c hb
    rw [List.foldl_cons, List.countP_cons]
    by_cases hl : width l = 1
    · have hstep := lineStep_blank signedChar firstlen c l hl
      obtain ⟨e1, e2, e3⟩ := ih (lineStep signedChar firstlen c l) (by rw [hstep]; simp)
      refine ⟨?_, ?_, e3⟩
      · rw [e1, hstep]; simp [isBlank, hl]
      · rw [e2, hstep]
    · have hstep := lineStep_after_blank signedChar firstlen c l hl hb
      obtain ⟨e1, e2, e3⟩ := ih (lineStep signedChar firstlen c l) (by rw [hstep]; exact hb)
      refine ⟨?_, ?_, e3⟩
      · rw [e1, hstep]; simp [isBlank, hl]; omega
      · rw [e2, hstep]

/-! ## Invariants of the error counters over lines -/

theorem forgiveN_val (c : Counters) :
    forgiveN c = if c.lastline = 1 ∧ c.errcnt = 1 then 0 else c.errcnt := by
  unfold forgiveN
  split_ifs with h
  · rw [h.2]
  · rfl

theorem forgiveN_of_errcnt_zero (c : Counters) (h : c.errcnt = 0) : forgiveN c = 0 := by
  rw [forgiveN_val]
  split_ifs <;> simp [h]

theorem forgiveN_of_two_le (c : Counters) (h : 2 ≤ c.errcnt) : forgiveN c = c.errcnt := by
  rw [forgiveN_val]
  have : ¬ (c.lastline = 1 ∧ c.errcnt = 1) := by
    intro h'; omega
  rw [if_neg this]

theorem lineStep_flagOk (signedChar : Bool) (firstlen : Nat) (c : Counters) (l : List Byte)
    (h : c.FlagOk) : (lineStep signedChar firstlen c l).FlagOk := by
  unfold Counters.FlagOk at h ⊢
  unfold lineStep
  split_ifs <;> dsimp only <;> intro h' <;> first | contradiction | omega

theorem foldl_flagOk (signedChar : Bool) (firstlen : Nat) (lines : List (List Byte)) :
    ∀ c : Counters, c.FlagOk → (lines.foldl (lineStep signedChar firstlen) c).FlagOk := by
  induction lines with
  | nil => intro c h; exact h
  | cons l ls ih => intro c h; exact ih _ (lineStep_flagOk signedChar firstlen c l h)

theorem zero_flagOk : Counters.zero.FlagOk := by
  intro h; exact absurd h (by decide)

/-- With an error already recorded, one more closed non-blank line makes the
forgiveness impossible: either a second error is recorded or `lastline` is cleared.
Blank lines keep whatever was reached. -/
theorem foldl_settled (signedChar : Bool) (firstlen : Nat) (lines : List (List Byte)) :
    ∀ c : Counters, 1 ≤ c.errcnt →
      ((2 ≤ c.errcnt ∨ c.lastline ≠ 1) ∨ ∃ l ∈ lines, isBlank l = false) →
      1 ≤ (lines.foldl (lineStep signedChar firstlen) c).errcnt
        ∧ (2 ≤ (lines.foldl (lineStep signedChar firstlen) c).errcnt
            ∨ (lines.foldl (lineStep signedChar firstlen) c).lastline ≠ 1) := by
  induction lines with
  | nil =>
    intro c h1 h
    rcases h with h | ⟨l, hl, _⟩
    · exact ⟨h1, h⟩
    · cases hl
  | cons l ls ih =>
    intro c h1 h
    rw [List.foldl_cons]
    by_cases hl : width l = 1
    · have hstep := lineStep_blank signedChar firstlen c l hl
      apply ih
      · rw [hstep]; exact h1
      · rcases h with h | ⟨m, hm, hmb⟩
        · left; rw [hstep]; exact h
        · rcases List.mem_cons.1 hm with e | hm
          · rw [e, isBlank_false_iff] at hmb; exact absurd hl hmb
          · right; exact ⟨m, hm, hmb⟩
    · by_cases hb : c.blank = 0
      · by_cases hf : width l = firstlen
        · have hstep := lineStep_match signedChar firstlen c l hl hb hf
          apply ih
          · rw [hstep]; exact h1
          · left; right; rw [hstep]; dsimp only; decide
        · have hstep := lineStep_mismatch signedChar firstlen c l hl hb hf
          apply ih
          · rw [hstep]; dsimp only; omega
          · left; left; rw [hstep]; dsimp only; omega
      · have hstep := lineStep_after_blank signedChar firstlen c l hl hb
        apply ih
        · rw [hstep]; dsimp only; omega
        · left; left; rw [hstep]; dsimp only; omega

theorem forgiveN_of_settled (c : Counters) (h1 : 1 ≤ c.errcnt)
    (h : 2 ≤ c.errcnt ∨ c.lastline ≠ 1) : 1 ≤ forgiveN c := by
  rw [forgiveN_val]
  have : ¬ (c.lastline = 1 ∧ c.errcnt = 1) := by
    intro h'; rcases h with h | h
    · omega
    · exact h h'.1
  rw [if_neg this]; exact h1

/-! ## Lines of residue bytes -/

theorem ne_nl_of_isResidue (signedChar : Bool) (ch : Byte) (h : isResidue signedChar ch = true) :
    ch ≠ NL := by
  intro e; rw [e, not_isResidue_nl] at h; exact Bool.noConfusion h

theorem ne_cr_of_isResidue (signedChar : Bool) (ch : Byte) (h : isResidue signedChar ch = true) :
    ch ≠ CR := by
  intro e; rw [e, not_isResidue_cr] at h; exact Bool.noConfusion h

theorem residues_of_all (signedChar : Bool) (l : List Byte)
    (h : ∀ ch ∈ l, isResidue signedChar ch = true) : residues signedChar l = l.length := by
  unfold residues
  rw [List.countP_eq_length]; exact h

theorem width_of_all (signedChar : Bool) (l : List Byte)
    (h : ∀ ch ∈ l, isResidue signedChar ch = true) : width l = l.length + 1 := by
  unfold width content
  have : List.countP (fun ch => decide (ch ≠ CR)) l = l.length := by
    rw [List.countP_eq_length]
    intro ch hch
    simpa using ne_cr_of_isResidue signedChar ch (h ch hch)
  rw [this]

theorem length_joinNL_ge (lines : List (List Byte)) (l : List Byte) (h : l ∈ lines) :
    l.length + 1 ≤ (joinNL lines).length := by
  induction lines with
  | nil => cases h
  | cons m ms ih =>
    rw [joinNL_cons, List.length_append, List.length_append]
    rcases List.mem_cons.1 h with e | h
    · rw [e]; simp
    · have := ih h; omega

theorem residues_joinNL_full (signedChar : Bool) (L : Nat) (lines : List (List Byte))
    (h : ∀ l ∈ lines, l.length = L ∧ ∀ ch ∈ l, isResidue signedChar ch = true) :
    residues signedChar (joinNL lines) = lines.length * L := by
  induction lines with
  | nil => simp [joinNL, residues]
  | cons m ms ih =>
    have hm := h m (List.mem_cons_self _ _)
    rw [joinNL_cons, residues_append, residues_append, ih (fun l hl => h l (List.mem_cons_of_mem _ hl)),
      residues_of_all signedChar m hm.2, hm.1, List.length_cons]
    simp [residues, not_isResidue_nl]
    ring

/-! ## C1: the sequence length -/

/-- C1, as stated, fails where plain `char` is signed: the byte 200 has a value
strictly greater than the space character (32), yet `*str > ' '` is false for it
and the scan of the one-byte buffer returns a sequence length of 0. -/
theorem seqlen_skips_high_byte_signed :
    (seqlen true [200] 0).1 = 0
      ∧ List.countP (fun ch : Byte => decide (32 < ch.val)) [200] = 1 := by
  decide

/-- C1, amended: for every buffer shorter than `2^32` bytes and every expected line
length, the returned sequence length is the number of bytes whose value as a C
`char` is strictly greater than the space character: the bytes 33..127, and also
the bytes 128..255 where `char` is unsigned.  It depends neither on `firstlen`
nor on where `'\n'` and `'\r'` occur. -/
theorem seqlen_counts_char_above_space (signedChar : Bool) (str : List Byte) (firstlen : Nat)
    (hsize : str.length < U32) :
    (seqlen signedChar str firstlen).1
      = str.countP (fun ch => decide (32 < ch.val ∧ (signedChar = true → ch.val < 128))) := by
  rw [seqlen_eq_seqlenN signedChar str firstlen hsize, seqlenN_fst]
  unfold residues
  apply List.countP_congr
  intro ch _
  cases signedChar
  · rw [isResidue_unsigned]; simp
  · rw [isResidue_signed]; simp

theorem seqlen_counts_char_above_space_witness :
    ([65, 200, 13, 10, 32, 66] : List Byte).length < U32
      ∧ (seqlen true [65, 200, 13, 10, 32, 66] 3).1
          = ([65, 200, 13, 10, 32, 66] : List Byte).countP
              (fun ch => decide (32 < ch.val ∧ (true = true → ch.val < 128))) :=
  ⟨by decide, seqlen_counts_char_above_space true [65, 200, 13, 10, 32, 66] 3 (by decide)⟩

/-! ## C2 and C3: full lines, and a short last line -/

/-- C2, as stated, fails: two lines of exactly one residue each, scanned with an
expected line length of 1, give an error count of 2, because the width compared
with `firstlen` counts the terminator (it is 2 for these lines). -/
theorem full_lines_expected_residue_count_errs :
    (∀ l ∈ ([[65], [65]] : List (List Byte)), l.length = 1 ∧ ∀ ch ∈ l, isResidue false ch = true)
      ∧ joinNL [[65], [65]] = [65, 10, 65, 10]
      ∧ seqlen false (joinNL [[65], [65]]) 1 = (2, 2)
      ∧ seqlen true (joinNL [[65], [65]]) 1 = (2, 2) := by
  decide

theorem seqlenN_snd_joinNL_only (signedChar : Bool) (firstlen : Nat) (lines : List (List Byte))
    (hlines : ∀ l ∈ lines, ∀ ch ∈ l, ch ≠ NL) :
    (seqlenN signedChar (joinNL lines) firstlen).2
      = forgiveN (lines.foldl (lineStep signedChar firstlen) Counters.zero) := by
  have h := seqlenN_snd_joinNL signedChar firstlen lines [] hlines (fun ch h => by cases h)
  rw [List.append_nil] at h
  exact h

/-- C2, amended: for `L ≥ 1` and a buffer of `n` lines of exactly `L` residue bytes,
each terminated by `'\n'` and nothing after, the error count is 0 when the expected
line length is `L + 1` (the width with its terminator); with an expected line
length of `L` it is 0 only for `n ≤ 1`, and `n` otherwise. -/
theorem full_lines_errcnt (signedChar : Bool) (L : Nat) (lines : List (List Byte))
    (hL : 1 ≤ L)
    (hlines : ∀ l ∈ lines, l.length = L ∧ ∀ ch ∈ l, isResidue signedChar ch = true)
    (hsize : (joinNL lines).length < U32) :
    (seqlen signedChar (joinNL lines) (L + 1)).2 = 0
      ∧ (seqlen signedChar (joinNL lines) L).2 = if lines.length ≤ 1 then 0 else lines.length := by
  have hnl : ∀ l ∈ lines, ∀ ch ∈ l, ch ≠ NL :=
    fun l hl ch hch => ne_nl_of_isResidue signedChar ch ((hlines l hl).2 ch hch)
  have hw : ∀ l ∈ lines, width l = L + 1 := fun l hl => by
    rw [width_of_all signedChar l (hlines l hl).2, (hlines l hl).1]
  have hnb : ∀ l ∈ lines, isBlank l = false := fun l hl => by
    rw [isBlank_false_iff, hw l hl]; omega
  rw [seqlen_eq_seqlenN _ _ _ hsize, seqlen_eq_seqlenN _ _ _ hsize,
    seqlenN_snd_joinNL_only _ _ _ hnl, seqlenN_snd_joinNL_only _ _ _ hnl]
  cases lines with
  | nil => simp [forgiveN, Counters.zero]
  | cons m ms =>
    have hlen := length_joinNL_ge (m :: ms) m (List.mem_cons_self _ _)
    rw [(hlines m (List.mem_cons_self _ _)).1] at hlen
    rw [wrap_of_lt (L + 1) (by omega), wrap_of_lt L (by omega)]
    constructor
    · obtain ⟨e, _⟩ := foldl_noblank signedChar (L + 1) (m :: ms) Counters.zero rfl hnb
      apply forgiveN_of_errcnt_zero
      rw [e]
      have : List.countP (isMismatch (L + 1)) (m :: ms) = 0 := by
        rw [List.countP_eq_zero]
        intro l hl
        simp [isMismatch, hw l hl]
      rw [this]; rfl
    · have hall : ∀ l ∈ m :: ms, isMismatch L l = true := fun l hl => by
        simp [isMismatch, hw l hl]
      obtain ⟨e, _⟩ := foldl_noblank signedChar L (m :: ms) Counters.zero rfl hnb
      rw [(List.countP_eq_length).2 hall] at e
      cases ms with
      | nil =>
        have hm : width m ≠ 1 := by rw [hw m (List.mem_cons_self _ _)]; omega
        have hf : width m ≠ L := by rw [hw m (List.mem_cons_self _ _)]; omega
        rw [List.foldl_cons, List.foldl_nil, lineStep_mismatch signedChar L _ m hm rfl hf]
        simp [forgiveN, Counters.zero]
      | cons m2 ms2 =>
        have h2 : 2 ≤ (List.foldl (lineStep signedChar L) Counters.zero (m :: m2 :: ms2)).errcnt := by
          rw [e]; simp [Counters.zero]
        rw [forgiveN_of_two_le _ h2, e]
        simp [Counters.zero]

theorem full_lines_errcnt_witness :
    (1 ≤ 2)
      ∧ (∀ l ∈ ([[65, 67], [71, 84], [65, 65]] : List (List Byte)),
          l.length = 2 ∧ ∀ ch ∈ l, isResidue true ch = true)
      ∧ (joinNL [[65, 67], [71, 84], [65, 65]]).length < U32
      ∧ ((seqlen true (joinNL [[65, 67], [71, 84], [65, 65]]) (2 + 1)).2 = 0
          ∧ (seqlen true (joinNL [[65, 67], [71, 84], [65, 65]]) 2).2
              = if ([[65, 67], [71, 84], [65, 65]] : List (List Byte)).length ≤ 1 then 0
                else ([[65, 67], [71, 84], [65, 65]] : List (List Byte)).length) :=
  ⟨by decide, by decide, by decide,
    full_lines_errcnt true 2 [[65, 67], [71, 84], [65, 65]] (by decide) (by decide) (by decide)⟩

/-- C3, as stated, fails: one line of two residues followed by a last line of one
residue (`L = 2`, `n = 1`, `s = 1`), scanned with an expected line length of 2,
gives an error count of 1: the full line has width 3 and is the mismatch, the
short line has width 2 and clears the forgiveness flag. -/
theorem short_last_line_expected_residue_count_errs :
    joinNL ([[65, 65]] ++ [[65]]) = [65, 65, 10, 65, 10]
      ∧ seqlen false (joinNL ([[65, 65]] ++ [[65]])) 2 = (3, 1)
      ∧ seqlen true (joinNL ([[65, 65]] ++ [[65]])) 2 = (3, 1) := by
  decide

/-- A non-blank line closed when no error and no blank line was recorded leaves a
returned error count of 0: it either matches, or is the one forgiven mismatch. -/
theorem forgiveN_lineStep_first (signedChar : Bool) (firstlen : Nat) (c : Counters) (l : List Byte)
    (he : c.errcnt = 0) (hb : c.blank = 0) (hl : width l ≠ 1) :
    forgiveN (lineStep signedChar firstlen c l) = 0 := by
  by_cases hf : width l = firstlen
  · rw [lineStep_match signedChar firstlen c l hl hb hf]
    exact forgiveN_of_errcnt_zero _ he
  · rw [lineStep_mismatch signedChar firstlen c l hl hb hf, forgiveN_val]
    simp [he]

/-- C3, amended: for `L ≥ 2`, `n` lines of exactly `L` residue bytes followed by a
last line of `s` residue bytes, `1 ≤ s < L`, every line terminated by `'\n'`, scanned
with the expected line length `L + 1` (the width with its terminator), return
`(n*L + s, 0)`; the sequence length is `n*L + s` with the expected length `L` too. -/
theorem short_last_line_forgiven (signedChar : Bool) (L s : Nat) (lines : List (List Byte))
    (lst : List Byte) (hL : 2 ≤ L) (hs1 : 1 ≤ s) (_hs2 : s < L)
    (hlines : ∀ l ∈ lines, l.length = L ∧ ∀ ch ∈ l, isResidue signedChar ch = true)
    (hlst : lst.length = s ∧ ∀ ch ∈ lst, isResidue signedChar ch = true)
    (hsize : (joinNL (lines ++ [lst])).length < U32) :
    seqlen signedChar (joinNL (lines ++ [lst])) (L + 1) = (lines.length * L + s, 0)
      ∧ (seqlen signedChar (joinNL (lines ++ [lst])) L).1 = lines.length * L + s := by
  have hnl : ∀ l ∈ lines ++ [lst], ∀ ch ∈ l, ch ≠ NL := by
    intro l hl ch hch
    rcases List.mem_append.1 hl with hl | hl
    · exact ne_nl_of_isResidue signedChar ch ((hlines l hl).2 ch hch)
    · rw [List.mem_singleton] at hl
      rw [hl] at hch
      exact ne_nl_of_isResidue signedChar ch (hlst.2 ch hch)
  have hw : ∀ l ∈ lines, width l = L + 1 := fun l hl => by
    rw [width_of_all signedChar l (hlines l hl).2, (hlines l hl).1]
  have hnb : ∀ l ∈ lines, isBlank l = false := fun l hl => by
    rw [isBlank_false_iff, hw l hl]; omega
  have hwl : width lst ≠ 1 := by
    rw [width_of_all signedChar lst hlst.2, hlst.1]; omega
  have hres : residues signedChar (joinNL (lines ++ [lst])) = lines.length * L + s := by
    rw [joinNL_append, residues_append, residues_joinNL_full signedChar L lines hlines,
      joinNL_cons, residues_append, residues_append, residues_of_all signedChar lst hlst.2, hlst.1]
    simp [joinNL, residues, not_isResidue_nl]
  have hfst : ∀ fl, (seqlen signedChar (joinNL (lines ++ [lst])) fl).1 = lines.length * L + s := by
    intro fl
    rw [seqlen_eq_seqlenN _ _ _ hsize, seqlenN_fst, hres]
  refine ⟨?_, hfst L⟩
  apply Prod.ext
  · exact hfst (L + 1)
  · rw [seqlen_eq_seqlenN _ _ _ hsize, seqlenN_snd_joinNL_only _ _ _ hnl, List.foldl_append,
      List.foldl_cons, List.foldl_nil]
    obtain ⟨e, eb⟩ := foldl_noblank signedChar (wrap (L + 1)) lines Counters.zero rfl hnb
    apply forgiveN_lineStep_first _ _ _ _ _ eb hwl
    rw [e]
    have : List.countP (isMismatch (wrap (L + 1))) lines = 0 := by
      rw [List.countP_eq_zero]
      intro l hl
      have hlen := length_joinNL_ge (lines ++ [lst]) l (List.mem_append_left _ hl)
      rw [(hlines l hl).1] at hlen
      rw [wrap_of_lt (L + 1) (by omega)]
      simp [isMismatch, hw l hl]
    rw [this]; rfl

theorem short_last_line_forgiven_witness :
    (2 ≤ 3) ∧ (1 ≤ 2) ∧ (2 < 3)
      ∧ (∀ l ∈ ([[65, 67, 71], [84, 65, 67]] : List (List Byte)),
          l.length = 3 ∧ ∀ ch ∈ l, isResidue true ch = true)
      ∧ (([71, 84] : List Byte).length = 2 ∧ ∀ ch ∈ ([71, 84] : List Byte), isResidue true ch = true)
      ∧ (joinNL ([[65, 67, 71], [84, 65, 67]] ++ [[71, 84]])).length < U32
      ∧ (seqlen true (joinNL ([[65, 67, 71], [84, 65, 67]] ++ [[71, 84]])) (3 + 1)
            = (([[65, 67, 71], [84, 65, 67]] : List (List Byte)).length * 3 + 2, 0)
          ∧ (seqlen true (joinNL ([[65, 67, 71], [84, 65, 67]] ++ [[71, 84]])) 3).1
            = ([[65, 67, 71], [84, 65, 67]] : List (List Byte)).length * 3 + 2) :=
  ⟨by decide, by decide, by decide, by decide, by decide, by decide,
    short_last_line_forgiven true 3 2 [[65, 67, 71], [84, 65, 67]] [71, 84]
      (by decide) (by decide) (by decide) (by decide) (by decide) (by decide)⟩

/-! ## C4 and C5: when an error stays recorded -/

/-- C4, as stated, fails: in `"A\nB"` scanned with an expected line length of 5 the
terminated line `"A"` is non-blank, has a width (2) different from the expected
one, and is followed by the residue `B`; yet the returned error count is 0,
because `B` is on an unterminated line and the mismatch is still forgiven. -/
theorem mismatch_before_unterminated_forgiven :
    termLines [65, 10, 66] = [[65]] ∧ lastPart [65, 10, 66] = [66]
      ∧ isBlank [65] = false ∧ isMismatch 5 [65] = true
      ∧ isResidue false 66 = true ∧ isResidue true 66 = true
      ∧ seqlen false [65, 10, 66] 5 = (2, 0)
      ∧ seqlen true [65, 10, 66] 5 = (2, 0) := by
  decide

/-- C4, amended: for every buffer shorter than `2^32` bytes and every expected line
length below `2^32`, if a non-blank `'\n'`-terminated line whose width differs from
the expected width is followed later by another non-blank `'\n'`-terminated line,
then the returned error count is at least 1. -/
theorem mismatch_before_content_line (signedChar : Bool) (str : List Byte) (firstlen : Nat)
    (before after : List (List Byte)) (line : List Byte)
    (hsize : str.length < U32) (hfl : firstlen < U32)
    (hsplit : termLines str = before ++ line :: after)
    (hnb : isBlank line = false) (hmis : isMismatch firstlen line = true)
    (hafter : ∃ l ∈ after, isBlank l = false) :
    1 ≤ (seqlen signedChar str firstlen).2 := by
  rw [seqlen_eq_seqlenN _ _ _ hsize, wrap_of_lt firstlen hfl, seqlenN_snd, hsplit,
    List.foldl_append, List.foldl_cons]
  have hl : width line ≠ 1 := (isBlank_false_iff line).1 hnb
  have hf : width line ≠ firstlen := by simpa [isMismatch] using hmis
  have h1 : 1 ≤ (lineStep signedChar firstlen
      (List.foldl (lineStep signedChar firstlen) Counters.zero before) line).errcnt := by
    by_cases hb : (List.foldl (lineStep signedChar firstlen) Counters.zero before).blank = 0
    · rw [lineStep_mismatch signedChar firstlen _ line hl hb hf]; dsimp only; omega
    · rw [lineStep_after_blank signedChar firstlen _ line hl hb]; dsimp only; omega
  obtain ⟨g1, g2⟩ := foldl_settled signedChar firstlen after _ h1 (Or.inr hafter)
  exact forgiveN_of_settled _ g1 g2

theorem mismatch_before_content_line_witness :
    ([65, 10, 66, 66, 10, 67] : List Byte).length < U32 ∧ 3 < U32
      ∧ termLines [65, 10, 66, 66, 10, 67] = [] ++ [65] :: [[66, 66]]
      ∧ isBlank [65] = false ∧ isMismatch 3 [65] = true
      ∧ (∃ l ∈ ([[66, 66]] : List (List Byte)), isBlank l = false)
      ∧ 1 ≤ (seqlen true [65, 10, 66, 66, 10, 67] 3).2 :=
  ⟨by decide, by decide, by decide, by decide, by decide, by decide,
    mismatch_before_content_line true [65, 10, 66, 66, 10, 67] 3 [] [[66, 66]] [65]
      (by decide) (by decide) (by decide) (by decide) (by decide) (by decide)⟩

/-- C5: for every buffer (shorter than `2^32` bytes) and every expected line length,
if a blank `'\n'`-terminated line is followed later by a content-bearing
`'\n'`-terminated line, the returned error count is at least 1, whatever the
widths; this covers a full-width line, a blank line, then a full-width line. -/
theorem content_after_blank_errs (signedChar : Bool) (str : List Byte) (firstlen : Nat)
    (before after : List (List Byte)) (bl : List Byte)
    (hsize : str.length < U32)
    (hsplit : termLines str = before ++ bl :: after)
    (hbl : isBlank bl = true)
    (hafter : ∃ l ∈ after, isBlank l = false) :
    1 ≤ (seqlen signedChar str firstlen).2 := by
  rw [seqlen_eq_seqlenN _ _ _ hsize, seqlenN_snd, hsplit, List.foldl_append, List.foldl_cons]
  have hw : width bl = 1 := (isBlank_true_iff bl).1 hbl
  have hok := lineStep_flagOk signedChar (wrap firstlen) _ bl
    (foldl_flagOk signedChar (wrap firstlen) before Counters.zero zero_flagOk)
  have hb : (lineStep signedChar (wrap firstlen)
      (List.foldl (lineStep signedChar (wrap firstlen)) Counters.zero before) bl).blank ≠ 0 := by
    rw [lineStep_blank signedChar (wrap firstlen) _ bl hw]; simp
  obtain ⟨e1, e2, _⟩ := foldl_blank signedChar (wrap firstlen) after _ hb
  have hm : 0 < List.countP (fun l => !isBlank l) after := by
    rw [List.countP_pos_iff]
    obtain ⟨l, hl, hlb⟩ := hafter
    exact ⟨l, hl, by simp [hlb]⟩
  rw [forgiveN_val]
  unfold Counters.FlagOk at hok
  split_ifs with h
  · rw [e2] at h
    have := hok h.1
    omega
  · omega

theorem content_after_blank_errs_witness :
    ([65, 67, 10, 10, 71, 84, 10] : List Byte).length < U32
      ∧ termLines [65, 67, 10, 10, 71, 84, 10] = [[65, 67]] ++ [] :: [[71, 84]]
      ∧ isBlank [] = true
      ∧ (∃ l ∈ ([[71, 84]] : List (List Byte)), isBlank l = false)
      ∧ isMismatch 3 [65, 67] = false ∧ isMismatch 3 [71, 84] = false
      ∧ 1 ≤ (seqlen true [65, 67, 10, 10, 71, 84, 10] 3).2 :=
  ⟨by decide, by decide, by decide, by decide, by decide, by decide,
    content_after_blank_errs true [65, 67, 10, 10, 71, 84, 10] 3 [[65, 67]] [[71, 84]] []
      (by decide) (by decide) (by decide) (by decide)⟩

/-! ## C6 and C7: carriage returns, and the unterminated last line -/

theorem runN_filter_cr (signedChar : Bool) (firstlen : Nat) (str : List Byte) :
    ∀ c : Counters,
      runN signedChar firstlen c (str.filter (fun ch => decide (ch ≠ CR)))
        = runN signedChar firstlen c str := by
  induction str with
  | nil => intro c; rfl
  | cons ch str ih =>
    intro c
    by_cases hcr : ch = CR
    · rw [List.filter_cons_of_neg (by simp [hcr]), runN_cons, hcr, bodyN_cr, ih]
    · rw [List.filter_cons_of_pos (by simp [hcr]), runN_cons, runN_cons, ih]

theorem seqlenN_filter_cr (signedChar : Bool) (firstlen : Nat) (str : List Byte) :
    seqlenN signedChar (str.filter (fun ch => decide (ch ≠ CR))) firstlen
      = seqlenN signedChar str firstlen := by
  unfold seqlenN
  rw [runN_filter_cr]

/-- C6: for every buffer (shorter than `2^32` bytes) and every expected line length,
the returned pair is unchanged when the carriage returns are deleted from the
buffer; so a line followed by `"\r\n"` gives the same result as the line followed by
`"\n"` alone, and a `'\r'` is never counted in the sequence length. -/
theorem cr_deleted_same_result (signedChar : Bool) (str line : List Byte) (firstlen : Nat)
    (hsize : str.length < U32) (hline : (line ++ [CR, NL]).length < U32) :
    seqlen signedChar (str.filter (fun ch => decide (ch ≠ CR))) firstlen
        = seqlen signedChar str firstlen
      ∧ seqlen signedChar (line ++ [CR, NL]) firstlen = seqlen signedChar (line ++ [NL]) firstlen
      ∧ isResidue signedChar CR = false := by
  have hflen : (str.filter (fun ch => decide (ch ≠ CR))).length < U32 :=
    lt_of_le_of_lt (List.length_filter_le _ _) hsize
  refine ⟨?_, ?_, not_isResidue_cr signedChar⟩
  · rw [seqlen_eq_seqlenN _ _ _ hflen, seqlen_eq_seqlenN _ _ _ hsize, seqlenN_filter_cr]
  · have h2 : (line ++ [NL]).length < U32 := by
      simp only [List.length_append, List.length_cons, List.length_nil] at hline ⊢
      omega
    rw [seqlen_eq_seqlenN _ _ _ hline, seqlen_eq_seqlenN _ _ _ h2]
    unfold seqlenN
    rw [runN_append, runN_append, runN_cons, bodyN_cr]

theorem cr_deleted_same_result_witness :
    ([65, 13, 67, 13, 10, 13, 13, 10, 71] : List Byte).length < U32
      ∧ (([65, 67] : List Byte) ++ [CR, NL]).length < U32
      ∧ (seqlen true (([65, 13, 67, 13, 10, 13, 13, 10, 71] : List Byte).filter
            (fun ch => decide (ch ≠ CR))) 3
          = seqlen true [65, 13, 67, 13, 10, 13, 13, 10, 71] 3
        ∧ seqlen true ([65, 67] ++ [CR, NL]) 3 = seqlen true ([65, 67] ++ [NL]) 3
        ∧ isResidue true CR = false) :=
  ⟨by decide, by decide,
    cr_deleted_same_result true [65, 13, 67, 13, 10, 13, 13, 10, 71] [65, 67] 3
      (by decide) (by decide)⟩

/-- C7: for every buffer `b`, every expected line length and every byte string `t`
without a `'\n'` (with `b ++ t` shorter than `2^32` bytes), scanning `b ++ t` returns
the error count of `b`, and the sequence length of `b` plus the number of residue
bytes of `t`. -/
theorem unterminated_tail_no_error (signedChar : Bool) (b t : List Byte) (firstlen : Nat)
    (ht : ∀ ch ∈ t, ch ≠ NL) (hsize : (b ++ t).length < U32) :
    (seqlen signedChar (b ++ t) firstlen).2 = (seqlen signedChar b firstlen).2
      ∧ (seqlen signedChar (b ++ t) firstlen).1
          = (seqlen signedChar b firstlen).1 + residues signedChar t := by
  have hb : b.length < U32 := by
    rw [List.length_append] at hsize; omega
  rw [seqlen_eq_seqlenN _ _ _ hsize, seqlen_eq_seqlenN _ _ _ hb]
  unfold seqlenN
  dsimp only
  rw [runN_append, runN_line signedChar (wrap firstlen) t _ ht]
  exact ⟨forgiveN_eq _ _ rfl rfl, rfl⟩

theorem unterminated_tail_no_error_witness :
    (∀ ch ∈ ([65, 67, 32, 71, 84, 65, 67, 13] : List Byte), ch ≠ NL)
      ∧ (([65, 67, 10, 71, 84, 10] : List Byte) ++ [65, 67, 32, 71, 84, 65, 67, 13]).length < U32
      ∧ ((seqlen true ([65, 67, 10, 71, 84, 10] ++ [65, 67, 32, 71, 84, 65, 67, 13]) 3).2
            = (seqlen true [65, 67, 10, 71, 84, 10] 3).2
          ∧ (seqlen true ([65, 67, 10, 71, 84, 10] ++ [65, 67, 32, 71, 84, 65, 67, 13]) 3).1
            = (seqlen true [65, 67, 10, 71, 84, 10] 3).1
                + residues true [65, 67, 32, 71, 84, 65, 67, 13]) :=
  ⟨by decide, by decide,
    unterminated_tail_no_error true [65, 67, 10, 71, 84, 10] [65, 67, 32, 71, 84, 65, 67, 13] 3
      (by decide) (by decide)⟩

/-! ## C8: two mismatching lines -/

/-- C8: for every expected line length (below `2^32`) and every buffer (shorter than
`2^32` bytes) without a blank line in which exactly two `'\n'`-terminated lines have
a width different from the expected one, the returned error count is exactly 2. -/
theorem two_mismatches_errcnt_two (signedChar : Bool) (str : List Byte) (firstlen : Nat)
    (hsize : str.length < U32) (hfl : firstlen < U32)
    (hnb : ∀ l ∈ termLines str, isBlank l = false)
    (h2 : (termLines str).countP (isMismatch firstlen) = 2) :
    (seqlen signedChar str firstlen).2 = 2 := by
  rw [seqlen_eq_seqlenN _ _ _ hsize, wrap_of_lt firstlen hfl, seqlenN_snd]
  obtain ⟨e, _⟩ := foldl_noblank signedChar firstlen (termLines str) Counters.zero rfl hnb
  rw [h2] at e
  have e2 : (List.foldl (lineStep signedChar firstlen) Counters.zero (termLines str)).errcnt = 2 := by
    rw [e]; rfl
  rw [forgiveN_of_two_le _ (by omega), e2]

theorem two_mismatches_errcnt_two_witness :
    ([65, 10, 65, 67, 10, 71, 10, 65, 67, 10, 84, 84, 84] : List Byte).length < U32 ∧ 3 < U32
      ∧ (∀ l ∈ termLines [65, 10, 65, 67, 10, 71, 10, 65, 67, 10, 84, 84, 84], isBlank l = false)
      ∧ (termLines [65, 10, 65, 67, 10, 71, 10, 65, 67, 10, 84, 84, 84]).countP (isMismatch 3) = 2
      ∧ (seqlen true [65, 10, 65, 67, 10, 71, 10, 65, 67, 10, 84, 84, 84] 3).2 = 2 :=
  ⟨by decide, by decide, by decide, by decide,
    two_mismatches_errcnt_two true [65, 10, 65, 67, 10, 71, 10, 65, 67, 10, 84, 84, 84] 3
      (by decide) (by decide) (by decide) (by decide)⟩

/-! ## C9 and C10: blank lines -/

theorem length_joinNL_init_le (str : List Byte) (before rest : List (List Byte))
    (hsplit : termLines str = before ++ rest) : (joinNL before).length ≤ str.length := by
  obtain ⟨h1, _, _⟩ := splitNL_spec str
  have h : str.length = (joinNL (termLines str) ++ lastPart str).length := by rw [h1]
  rw [h, hsplit, joinNL_append, List.length_append, List.length_append]
  omega

/-- C9: let the first blank line of a buffer (shorter than `2^32` bytes, expected
line length below `2^32`) be preceded by the non-blank lines `before` and followed
by the terminated lines `after`, `m` of which are content-bearing.  The returned
error count is at least `m`; for `m ≥ 1` it is the number of mismatching lines of
`before` plus `m` (one error per content line, whatever its width), and for
`m = 0` it is the error count of the lines `before` alone.  Blank lines among
`after` do not enter the count. -/
theorem content_lines_after_blank_counted (signedChar : Bool) (str : List Byte) (firstlen : Nat)
    (before after : List (List Byte)) (bl : List Byte)
    (hsize : str.length < U32) (hfl : firstlen < U32)
    (hsplit : termLines str = before ++ bl :: after)
    (hbefore : ∀ l ∈ before, isBlank l = false) (hbl : isBlank bl = true) :
    after.countP (fun l => !isBlank l) ≤ (seqlen signedChar str firstlen).2
      ∧ (seqlen signedChar str firstlen).2
          = if after.countP (fun l => !isBlank l) = 0
              then (seqlen signedChar (joinNL before) firstlen).2
              else before.countP (isMismatch firstlen) + after.countP (fun l => !isBlank l) := by
  have hpre : (joinNL before).length < U32 :=
    lt_of_le_of_lt (length_joinNL_init_le str before (bl :: after) hsplit) hsize
  have hnl : ∀ l ∈ before, ∀ ch ∈ l, ch ≠ NL := by
    intro l hl
    have := (splitNL_spec str).2.1 l (by rw [hsplit]; exact List.mem_append_left _ hl)
    exact this
  rw [seqlen_eq_seqlenN _ _ _ hsize, seqlen_eq_seqlenN _ _ _ hpre, wrap_of_lt firstlen hfl,
    seqlenN_snd, seqlenN_snd_joinNL_only _ _ _ hnl, hsplit, List.foldl_append, List.foldl_cons]
  have hw : width bl = 1 := (isBlank_true_iff bl).1 hbl
  obtain ⟨e0, _⟩ := foldl_noblank signedChar firstlen before Counters.zero rfl hbefore
  have hok := foldl_flagOk signedChar firstlen before Counters.zero zero_flagOk
  have hstep := lineStep_blank signedChar firstlen
    (List.foldl (lineStep signedChar firstlen) Counters.zero before) bl hw
  have hb : (lineStep signedChar firstlen
      (List.foldl (lineStep signedChar firstlen) Counters.zero before) bl).blank ≠ 0 := by
    rw [hstep]; simp
  obtain ⟨e1, e2, _⟩ := foldl_blank signedChar firstlen after _ hb
  have he : (lineStep signedChar firstlen
      (List.foldl (lineStep signedChar firstlen) Counters.zero before) bl).errcnt
        = (List.foldl (lineStep signedChar firstlen) Counters.zero before).errcnt := by rw [hstep]
  have hl : (lineStep signedChar firstlen
      (List.foldl (lineStep signedChar firstlen) Counters.zero before) bl).lastline
        = (List.foldl (lineStep signedChar firstlen) Counters.zero before).lastline := by rw [hstep]
  have hz : Counters.zero.errcnt = 0 := rfl
  rw [hz, Nat.zero_add] at e0
  rw [he, e0] at e1
  rw [hl] at e2
  unfold Counters.FlagOk at hok
  rw [e0] at hok
  rw [forgiveN_val, forgiveN_val, e1, e2, e0]
  by_cases hm : List.countP (fun l => !isBlank l) after = 0
  · rw [hm, if_pos rfl, Nat.add_zero]
    split_ifs <;> omega
  · rw [if_neg hm]
    split_ifs with h
    · exfalso
      have := hok h.1
      omega
    · omega

theorem content_lines_after_blank_counted_witness :
    ([65, 10, 10, 65, 67, 10, 10, 71, 10] : List Byte).length < U32 ∧ 3 < U32
      ∧ termLines [65, 10, 10, 65, 67, 10, 10, 71, 10] = [[65]] ++ [] :: [[65, 67], [], [71]]
      ∧ (∀ l ∈ ([[65]] : List (List Byte)), isBlank l = false) ∧ isBlank [] = true
      ∧ (([[65, 67], [], [71]] : List (List Byte)).countP (fun l => !isBlank l)
            ≤ (seqlen true [65, 10, 10, 65, 67, 10, 10, 71, 10] 3).2
          ∧ (seqlen true [65, 10, 10, 65, 67, 10, 10, 71, 10] 3).2
              = if ([[65, 67], [], [71]] : List (List Byte)).countP (fun l => !isBlank l) = 0
                  then (seqlen true (joinNL [[65]]) 3).2
                  else ([[65]] : List (List Byte)).countP (isMismatch 3)
                    + ([[65, 67], [], [71]] : List (List Byte)).countP (fun l => !isBlank l)) :=
  ⟨by decide, by decide, by decide, by decide, by decide,
    content_lines_after_blank_counted true [65, 10, 10, 65, 67, 10, 10, 71, 10] 3
      [[65]] [[65, 67], [], [71]] [] (by decide) (by decide) (by decide) (by decide) (by decide)⟩

theorem runN_linelen_of_atLineStart (signedChar : Bool) (firstlen : Nat) (b : List Byte)
    (hb : atLineStart b = true) : (runN signedChar firstlen Counters.zero b).linelen = 0 := by
  unfold atLineStart at hb
  simp only [Bool.or_eq_true, decide_eq_true_eq] at hb
  rcases hb with hb | hb
  · rw [hb]; rfl
  · obtain ⟨ys, hys⟩ := List.getLast?_eq_some_iff.1 hb
    rw [hys, runN_append, runN_cons, runN_nil, bodyN_nl]
    unfold closeLine
    split_ifs <;> rfl

theorem runN_replicate_nl (signedChar : Bool) (firstlen : Nat) (k : Nat) :
    ∀ c : Counters, c.linelen = 0 →
      runN signedChar firstlen c (List.replicate k NL) = { c with blank := c.blank + k } := by
  induction k with
  | zero => intro c _; rfl
  | succ k ih =>
    intro c h0
    have hstep : closeLine firstlen c = { c with blank := c.blank + 1, linelen := 0 } := by
      unfold closeLine; rw [if_pos h0]
    rw [List.replicate_succ, runN_cons, bodyN_nl, hstep, ih _ rfl]
    simp only [Counters.mk.injEq, true_and, and_true]
    exact ⟨h0.symm, by omega⟩

/-- C10: for every expected line length, every buffer `b` that is empty or ends with
`'\n'`, and every `k` (with the extended buffer shorter than `2^32` bytes), scanning
`b` followed by `k` more `'\n'` bytes returns the same pair as scanning `b`; and the
loop body on the `'\n'` of a blank line leaves `errcnt` and `lastline` as they are. -/
theorem trailing_blank_lines_ignored (signedChar : Bool) (b : List Byte) (firstlen k : Nat)
    (hb : atLineStart b = true) (hsize : (b ++ List.replicate k NL).length < U32) :
    seqlen signedChar (b ++ List.replicate k NL) firstlen = seqlen signedChar b firstlen
      ∧ ∀ c : Counters, c.linelen = 0 →
          (body signedChar firstlen c NL).errcnt = c.errcnt
            ∧ (body signedChar firstlen c NL).lastline = c.lastline := by
  constructor
  · have hlen : b.length < U32 := by
      rw [List.length_append] at hsize; omega
    rw [seqlen_eq_seqlenN _ _ _ hsize, seqlen_eq_seqlenN _ _ _ hlen]
    unfold seqlenN
    dsimp only
    rw [runN_append, runN_replicate_nl signedChar (wrap firstlen) k _
      (runN_linelen_of_atLineStart signedChar (wrap firstlen) b hb)]
    exact Prod.ext rfl (forgiveN_eq _ _ rfl rfl)
  · intro c h0
    have h3 : charVal signedChar NL = 10 := by cases signedChar <;> decide
    have h1 : wrap (c.linelen + 1) = 1 := by rw [h0]; rfl
    unfold body
    simp only [h3, h1]
    exact ⟨rfl, rfl⟩

theorem trailing_blank_lines_ignored_witness :
    atLineStart [65, 67, 10, 71, 10] = true
      ∧ (([65, 67, 10, 71, 10] : List Byte) ++ List.replicate 3 NL).length < U32
      ∧ (seqlen true ([65, 67, 10, 71, 10] ++ List.replicate 3 NL) 3 = seqlen true [65, 67, 10, 71, 10] 3
          ∧ ∀ c : Counters, c.linelen = 0 →
              (body true 3 c NL).errcnt = c.errcnt ∧ (body true 3 c NL).lastline = c.lastline) :=
  ⟨by decide, by decide,
    trailing_blank_lines_ignored true [65, 67, 10, 71, 10] 3 3 (by decide) (by decide)⟩

/-! ## The counters at the end of the loop -/

theorem seqlen_eq_scanCounters (signedChar : Bool) (str : List Byte) (firstlen : Nat) :
    seqlen signedChar str firstlen
      = ((scanCounters signedChar str firstlen).seqlen,
          forgive (scanCounters signedChar str firstlen)) := rfl

theorem scanCounters_eq_runN (signedChar : Bool) (str : List Byte) (firstlen : Nat)
    (hsize : str.length < U32) :
    scanCounters signedChar str firstlen
      = runN signedChar (wrap firstlen) Counters.zero str := by
  have hz : Counters.zero.Bounded 0 := by simp [Counters.Bounded, Counters.zero]
  unfold scanCounters
  rw [wrap_of_lt _ hsize]
  exact scanLoop_eq_runN signedChar (wrap firstlen) str Counters.zero 0 hz (by omega)

/-- The error counters at the end of the loop are those of the fold of `lineStep`
over the terminated lines. -/
theorem runN_zero_lines (signedChar : Bool) (firstlen : Nat) (str : List Byte) :
    (runN signedChar firstlen Counters.zero str).errcnt
        = ((termLines str).foldl (lineStep signedChar firstlen) Counters.zero).errcnt
      ∧ (runN signedChar firstlen Counters.zero str).lastline
        = ((termLines str).foldl (lineStep signedChar firstlen) Counters.zero).lastline
      ∧ (runN signedChar firstlen Counters.zero str).blank
        = ((termLines str).foldl (lineStep signedChar firstlen) Counters.zero).blank := by
  obtain ⟨h1, h2, h3⟩ := splitNL_spec str
  have h := runN_lines signedChar firstlen (termLines str) (lastPart str) Counters.zero rfl h2 h3
  rw [h1] at h
  rw [h]
  exact ⟨rfl, rfl, rfl⟩

theorem forgiveN_le (c : Counters) : forgiveN c ≤ c.errcnt := by
  rw [forgiveN_val]
  split_ifs <;> omega

/-! ## C11: an expected line length of zero -/

/-- With an expected width of 0 every non-blank line adds one error, in either
state of `blank`. -/
theorem foldl_zero_width (signedChar : Bool) (lines : List (List Byte)) :
    ∀ c : Counters,
      (lines.foldl (lineStep signedChar 0) c).errcnt
        = c.errcnt + lines.countP (fun l => !isBlank l) := by
  induction lines with
  | nil => intro c; simp
  | cons l ls ih =>
    intro c
    rw [List.foldl_cons, List.countP_cons, ih]
    by_cases hl : width l = 1
    · rw [lineStep_blank signedChar 0 c l hl]
      simp [isBlank, hl]
    · by_cases hb : c.blank = 0
      · have hf : width l ≠ 0 := by have := width_pos l; omega
        rw [lineStep_mismatch signedChar 0 c l hl hb hf]
        simp only [isBlank, hl, decide_False, Bool.not_false, if_true]
        omega
      · rw [lineStep_after_blank signedChar 0 c l hl hb]
        simp only [isBlank, hl, decide_False, Bool.not_false, if_true]
        omega

/-- C11: with an expected line length of 0, for every buffer (shorter than `2^32`
bytes) with `k` terminated lines that have a byte other than `'\r'` before the
terminator, the error count before the end-of-scan forgiveness is `k`, and the
returned error count is `k` whenever `k ≠ 1`. -/
theorem zero_width_every_content_line_errs (signedChar : Bool) (str : List Byte)
    (hsize : str.length < U32) :
    (scanCounters signedChar str 0).errcnt = (termLines str).countP (fun l => !isBlank l)
      ∧ ((termLines str).countP (fun l => !isBlank l) ≠ 1 →
          (seqlen signedChar str 0).2 = (termLines str).countP (fun l => !isBlank l)) := by
  have hw : wrap 0 = 0 := rfl
  have hraw : (runN signedChar 0 Counters.zero str).errcnt
      = (termLines str).countP (fun l => !isBlank l) := by
    rw [(runN_zero_lines signedChar 0 str).1, foldl_zero_width]
    simp [Counters.zero]
  constructor
  · rw [scanCounters_eq_runN _ _ _ hsize, hw, hraw]
  · intro hk
    rw [seqlen_eq_scanCounters, scanCounters_eq_runN _ _ _ hsize, hw, forgive_eq_forgiveN,
      forgiveN_val, hraw]
    rw [if_neg (fun h => hk h.2)]

theorem zero_width_every_content_line_errs_witness :
    ([65, 10, 13, 10, 32, 10, 67, 71] : List Byte).length < U32
      ∧ ((scanCounters true [65, 10, 13, 10, 32, 10, 67, 71] 0).errcnt
            = (termLines [65, 10, 13, 10, 32, 10, 67, 71]).countP (fun l => !isBlank l)
          ∧ ((termLines [65, 10, 13, 10, 32, 10, 67, 71]).countP (fun l => !isBlank l) ≠ 1 →
              (seqlen true [65, 10, 13, 10, 32, 10, 67, 71] 0).2
                = (termLines [65, 10, 13, 10, 32, 10, 67, 71]).countP (fun l => !isBlank l))) :=
  ⟨by decide, zero_width_every_content_line_errs true [65, 10, 13, 10, 32, 10, 67, 71] (by decide)⟩

/-! ## C12 and C13: the empty buffer, and totality -/

/-- C12: scanning the empty buffer returns `(0, 0)` for every expected line length. -/
theorem seqlen_empty (signedChar : Bool) (firstlen : Nat) :
    seqlen signedChar [] firstlen = (0, 0) := rfl

theorem refBefore_noblank (lines : List (List Byte)) :
    ∀ l ∈ refBefore lines, isBlank l = false := by
  unfold refBefore
  induction lines with
  | nil => intro l hl; cases hl
  | cons m ms ih =>
    intro l hl
    by_cases hm : isBlank m = true
    · rw [List.takeWhile_cons_of_neg (by simp [hm])] at hl; cases hl
    · have hm2 : isBlank m = false := by simpa using hm
      rw [List.takeWhile_cons_of_pos (by simp [hm2])] at hl
      rcases List.mem_cons.1 hl with e | hl
      · rw [e]; exact hm2
      · exact ih l hl

theorem refAfter_head (lines : List (List Byte)) :
    refAfter lines = [] ∨ ∃ b rest, refAfter lines = b :: rest ∧ isBlank b = true := by
  unfold refAfter
  induction lines with
  | nil => left; rfl
  | cons m ms ih =>
    by_cases hm : isBlank m = true
    · right
      exact ⟨m, ms, by rw [List.dropWhile_cons_of_neg (by simp [hm])], hm⟩
    · have hm2 : isBlank m = false := by simpa using hm
      rw [List.dropWhile_cons_of_pos (by simp [hm2])]
      exact ih

theorem refBefore_append_refAfter (lines : List (List Byte)) :
    refBefore lines ++ refAfter lines = lines :=
  List.takeWhile_append_dropWhile _ _

/-- Over non-blank lines read before any blank line, `lastline` ends as the last
line leaves it: set by a mismatch, cleared by a match. -/
theorem foldl_noblank_lastline (signedChar : Bool) (firstlen : Nat) (lines : List (List Byte)) :
    ∀ c : Counters, c.blank = 0 → (∀ l ∈ lines, isBlank l = false) →
      ((lines.foldl (lineStep signedChar firstlen) c).lastline = 1
        ↔ (lines = [] ∧ c.lastline = 1)
            ∨ ∃ l, lines.getLast? = some l ∧ isMismatch firstlen l = true) := by
  induction lines with
  | nil => intro c _ _; simp
  | cons l ls ih =>
    intro c hb h
    have hl : width l ≠ 1 := (isBlank_false_iff l).1 (h l (List.mem_cons_self _ _))
    have hrest : ∀ m ∈ ls, isBlank m = false := fun m hm => h m (List.mem_cons_of_mem _ hm)
    have hblank : (lineStep signedChar firstlen c l).blank = 0 := by
      by_cases hf : width l = firstlen
      · rw [lineStep_match signedChar firstlen c l hl hb hf]; exact hb
      · rw [lineStep_mismatch signedChar firstlen c l hl hb hf]; exact hb
    have hlast : (lineStep signedChar firstlen c l).lastline = 1 ↔ isMismatch firstlen l = true := by
      by_cases hf : width l = firstlen
      · rw [lineStep_match signedChar firstlen c l hl hb hf]; simp [isMismatch, hf]
      · rw [lineStep_mismatch signedChar firstlen c l hl hb hf]; simp [isMismatch, hf]
    rw [List.foldl_cons, ih _ hblank hrest]
    cases ls with
    | nil => simp [hlast]
    | cons m ms => simp [List.getLast?_cons_cons]

/-- From the first blank line on, every non-blank line adds one error and
`lastline` stays. -/
theorem foldl_from_blank (signedChar : Bool) (firstlen : Nat) (after : List (List Byte))
    (c : Counters)
    (h : after = [] ∨ ∃ b rest, after = b :: rest ∧ isBlank b = true) :
    (after.foldl (lineStep signedChar firstlen) c).errcnt
        = c.errcnt + after.countP (fun l => !isBlank l)
      ∧ (after.foldl (lineStep signedChar firstlen) c).lastline = c.lastline := by
  rcases h with h | ⟨b, rest, h, hb⟩
  · rw [h]; simp
  · have hw : width b = 1 := (isBlank_true_iff b).1 hb
    have hstep := lineStep_blank signedChar firstlen c b hw
    have hne : (lineStep signedChar firstlen c b).blank ≠ 0 := by rw [hstep]; simp
    obtain ⟨e1, e2, _⟩ := foldl_blank signedChar firstlen rest _ hne
    rw [h, List.foldl_cons, List.countP_cons, e1, e2, hstep]
    simp [hb]

theorem refFlag_iff (firstlen : Nat) (str : List Byte) :
    refFlag firstlen str = true
      ↔ ∃ l, (refBefore (termLines str)).getLast? = some l ∧ isMismatch firstlen l = true := by
  unfold refFlag
  cases (refBefore (termLines str)).getLast? with
  | none => simp
  | some l => simp

/-- The fold of `lineStep` over the terminated lines computes the reference count
and the reference flag. -/
theorem foldl_lines_ref (signedChar : Bool) (firstlen : Nat) (str : List Byte) :
    ((termLines str).foldl (lineStep signedChar firstlen) Counters.zero).errcnt
        = refErrcntRaw firstlen str
      ∧ (((termLines str).foldl (lineStep signedChar firstlen) Counters.zero).lastline = 1
          ↔ refFlag firstlen str = true) := by
  have hsplit := refBefore_append_refAfter (termLines str)
  have hnb := refBefore_noblank (termLines str)
  obtain ⟨e0, _⟩ := foldl_noblank signedChar firstlen (refBefore (termLines str))
    Counters.zero rfl hnb
  have hl := foldl_noblank_lastline signedChar firstlen (refBefore (termLines str))
    Counters.zero rfl hnb
  obtain ⟨e1, e2⟩ := foldl_from_blank signedChar firstlen (refAfter (termLines str))
    ((refBefore (termLines str)).foldl (lineStep signedChar firstlen) Counters.zero)
    (refAfter_head (termLines str))
  rw [← List.foldl_append, hsplit] at e1 e2
  constructor
  · rw [e1, e0]
    unfold refErrcntRaw
    simp [Counters.zero]
  · rw [e2, hl, refFlag_iff]
    have hz : ¬ (Counters.zero.lastline = 1) := by decide
    constructor
    · rintro (⟨_, h⟩ | h)
      · exact absurd h hz
      · exact h
    · intro h; exact Or.inr h

/-- C14: the byte-level scan equals the line-level reference.  For every buffer
shorter than `2^32` bytes and every expected line length below `2^32`: the error
count before the forgiveness is the reference count, `lastline` is set exactly
when the reference flag is, and the returned error count is the reference one. -/
theorem scan_refines_line_reference (signedChar : Bool) (str : List Byte) (firstlen : Nat)
    (hsize : str.length < U32) (hfl : firstlen < U32) :
    (scanCounters signedChar str firstlen).errcnt = refErrcntRaw firstlen str
      ∧ ((scanCounters signedChar str firstlen).lastline = 1 ↔ refFlag firstlen str = true)
      ∧ (seqlen signedChar str firstlen).2 = refErrcnt firstlen str := by
  obtain ⟨r1, r2, _⟩ := runN_zero_lines signedChar firstlen str
  obtain ⟨f1, f2⟩ := foldl_lines_ref signedChar firstlen str
  have hc := scanCounters_eq_runN signedChar str firstlen hsize
  rw [wrap_of_lt firstlen hfl] at hc
  have h1 : (scanCounters signedChar str firstlen).errcnt = refErrcntRaw firstlen str := by
    rw [hc, r1, f1]
  have h2 : (scanCounters signedChar str firstlen).lastline = 1 ↔ refFlag firstlen str = true := by
    rw [hc, r2, f2]
  refine ⟨h1, h2, ?_⟩
  rw [seqlen_eq_scanCounters, forgive_eq_forgiveN]
  unfold forgiveN refErrcnt
  simp only [h1, h2]

theorem scan_refines_line_reference_witness :
    ([65, 67, 10, 71, 10, 13, 10, 84, 10, 10, 65] : List Byte).length < U32 ∧ 3 < U32
      ∧ ((scanCounters true [65, 67, 10, 71, 10, 13, 10, 84, 10, 10, 65] 3).errcnt
            = refErrcntRaw 3 [65, 67, 10, 71, 10, 13, 10, 84, 10, 10, 65]
          ∧ ((scanCounters true [65, 67, 10, 71, 10, 13, 10, 84, 10, 10, 65] 3).lastline = 1
              ↔ refFlag 3 [65, 67, 10, 71, 10, 13, 10, 84, 10, 10, 65] = true)
          ∧ (seqlen true [65, 67, 10, 71, 10, 13, 10, 84, 10, 10, 65] 3).2
              = refErrcnt 3 [65, 67, 10, 71, 10, 13, 10, 84, 10, 10, 65]) :=
  ⟨by decide, by decide,
    scan_refines_line_reference true [65, 67, 10, 71, 10, 13, 10, 84, 10, 10, 65] 3
      (by decide) (by decide)⟩

/-! ## C15: bytes that are neither residue, nor `'\r'`, nor `'\n'` -/

theorem isOther_iff (signedChar : Bool) (ch : Byte) :
    isOther signedChar ch = true ↔ isResidue signedChar ch = false ∧ ch ≠ CR ∧ ch ≠ NL := by
  simp [isOther, and_assoc]

theorem body_other (signedChar : Bool) (firstlen : Nat) (c : Counters) (ch : Byte)
    (h : isOther signedChar ch = true) :
    body signedChar firstlen c ch = { c with linelen := wrap (c.linelen + 1) } := by
  obtain ⟨hr, hcr, hnl⟩ := (isOther_iff signedChar ch).1 h
  have h1 : ¬ charVal signedChar ch > 32 := by
    rw [← isResidue_iff]; simp [hr]
  have h2 : ¬ charVal signedChar ch = 13 := by rw [charVal_eq_cr]; exact hcr
  have h3 : ¬ charVal signedChar ch = 10 := by rw [charVal_eq_nl]; exact hnl
  simp [body, h1, h2, h3]

theorem content_of_all_other (signedChar : Bool) (line : List Byte)
    (h : ∀ ch ∈ line, isOther signedChar ch = true) : content line = line.length := by
  unfold content
  rw [List.countP_eq_length]
  intro ch hch
  simpa using ((isOther_iff signedChar ch).1 (h ch hch)).2.1

theorem residues_of_all_other (signedChar : Bool) (line : List Byte)
    (h : ∀ ch ∈ line, isOther signedChar ch = true) : residues signedChar line = 0 := by
  unfold residues
  rw [List.countP_eq_zero]
  intro ch hch
  simp [((isOther_iff signedChar ch).1 (h ch hch)).1]

/-- The counters after a further whole line, in terms of those before it. -/
theorem scanCounters_line (signedChar : Bool) (firstlen : Nat) (pre line : List Byte)
    (hpre : atLineStart pre = true) (hline : ∀ ch ∈ line, ch ≠ NL)
    (hsize : (pre ++ line ++ [NL]).length < U32) :
    scanCounters signedChar (pre ++ line ++ [NL]) firstlen
      = lineStep signedChar (wrap firstlen) (scanCounters signedChar pre firstlen) line := by
  have hp : pre.length < U32 := by
    simp only [List.length_append] at hsize; omega
  rw [scanCounters_eq_runN _ _ _ hsize, scanCounters_eq_runN _ _ _ hp, List.append_assoc,
    runN_append,
    runN_line_nl signedChar (wrap firstlen) _ line
      (runN_linelen_of_atLineStart signedChar (wrap firstlen) pre hpre) hline]

/-- C15: a byte that is neither a residue, nor `'\r'`, nor `'\n'` adds one to
`linelen` and changes no other counter; so a terminated line made only of such
bytes (buffer shorter than `2^32` bytes, expected length below `2^32`) is not a
blank line: it leaves `blank` and `seqlen` as they are and is evaluated as a
content line, for the content-after-blank error or for the width mismatch. -/
theorem other_bytes_count_in_width_only (signedChar : Bool) (firstlen : Nat) (c : Counters)
    (ch : Byte) (pre line : List Byte)
    (hch : isOther signedChar ch = true) (hc : c.linelen + 1 < U32)
    (hpre : atLineStart pre = true) (hne : line ≠ [])
    (hline : ∀ x ∈ line, isOther signedChar x = true)
    (hsize : (pre ++ line ++ [NL]).length < U32) (hfl : firstlen < U32) :
    body signedChar firstlen c ch = { c with linelen := c.linelen + 1 }
      ∧ isBlank line = false
      ∧ width line = line.length + 1
      ∧ (scanCounters signedChar (pre ++ line ++ [NL]) firstlen).blank
          = (scanCounters signedChar pre firstlen).blank
      ∧ (scanCounters signedChar (pre ++ line ++ [NL]) firstlen).seqlen
          = (scanCounters signedChar pre firstlen).seqlen
      ∧ ((scanCounters signedChar pre firstlen).blank ≠ 0 →
          (scanCounters signedChar (pre ++ line ++ [NL]) firstlen).errcnt
              = (scanCounters signedChar pre firstlen).errcnt + 1
            ∧ (scanCounters signedChar (pre ++ line ++ [NL]) firstlen).lastline
              = (scanCounters signedChar pre firstlen).lastline)
      ∧ ((scanCounters signedChar pre firstlen).blank = 0 → line.length + 1 ≠ firstlen →
          (scanCounters signedChar (pre ++ line ++ [NL]) firstlen).errcnt
              = (scanCounters signedChar pre firstlen).errcnt + 1
            ∧ (scanCounters signedChar (pre ++ line ++ [NL]) firstlen).lastline = 1)
      ∧ ((scanCounters signedChar pre firstlen).blank = 0 → line.length + 1 = firstlen →
          (scanCounters signedChar (pre ++ line ++ [NL]) firstlen).errcnt
              = (scanCounters signedChar pre firstlen).errcnt
            ∧ (scanCounters signedChar (pre ++ line ++ [NL]) firstlen).lastline = 0) := by
  have hnl : ∀ x ∈ line, x ≠ NL := fun x hx => ((isOther_iff signedChar x).1 (hline x hx)).2.2
  have hw : width line = line.length + 1 := by
    unfold width; rw [content_of_all_other signedChar line hline]
  have hlen : 0 < line.length := List.length_pos.2 hne
  have hw1 : width line ≠ 1 := by rw [hw]; omega
  have hres := residues_of_all_other signedChar line hline
  have hstep := scanCounters_line signedChar firstlen pre line hpre hnl hsize
  rw [wrap_of_lt firstlen hfl] at hstep
  refine ⟨?_, (isBlank_false_iff line).2 hw1, hw, ?_, ?_, ?_, ?_, ?_⟩
  · rw [body_other signedChar firstlen c ch hch, wrap_of_lt _ hc]
  · rw [hstep]
    by_cases hb : (scanCounters signedChar pre firstlen).blank = 0
    · by_cases hf : width line = firstlen
      · rw [lineStep_match signedChar firstlen _ line hw1 hb hf]
      · rw [lineStep_mismatch signedChar firstlen _ line hw1 hb hf]
    · rw [lineStep_after_blank signedChar firstlen _ line hw1 hb]
  · rw [hstep]
    by_cases hb : (scanCounters signedChar pre firstlen).blank = 0
    · by_cases hf : width line = firstlen
      · rw [lineStep_match signedChar firstlen _ line hw1 hb hf, hres]; rfl
      · rw [lineStep_mismatch signedChar firstlen _ line hw1 hb hf, hres]; rfl
    · rw [lineStep_after_blank signedChar firstlen _ line hw1 hb, hres]; rfl
  · intro hb
    rw [hstep, lineStep_after_blank signedChar firstlen _ line hw1 hb]
    exact ⟨rfl, rfl⟩
  · intro hb hf
    rw [hstep, lineStep_mismatch signedChar firstlen _ line hw1 hb (by rw [hw]; exact hf)]
    exact ⟨rfl, rfl⟩
  · intro hb hf
    rw [hstep, lineStep_match signedChar firstlen _ line hw1 hb (by rw [hw]; exact hf)]
    exact ⟨rfl, rfl⟩

theorem other_bytes_count_in_width_only_witness :
    isOther true 32 = true ∧ Counters.zero.linelen + 1 < U32
      ∧ atLineStart [65, 10, 10] = true ∧ ([32, 9, 0] : List Byte) ≠ []
      ∧ (∀ x ∈ ([32, 9, 0] : List Byte), isOther true x = true)
      ∧ (([65, 10, 10] : List Byte) ++ [32, 9, 0] ++ [NL]).length < U32 ∧ 4 < U32
      ∧ (scanCounters true [65, 10, 10] 4).blank ≠ 0
      ∧ (scanCounters true ([65, 10, 10] ++ [32, 9, 0] ++ [NL]) 4).errcnt
          = (scanCounters true [65, 10, 10] 4).errcnt + 1 :=
  ⟨by decide, by decide, by decide, by decide, by decide, by decide, by decide, by decide,
    ((other_bytes_count_in_width_only true 4 Counters.zero 32 [65, 10, 10] [32, 9, 0]
      (by decide) (by decide) (by decide) (by decide) (by decide) (by decide)
      (by decide)).2.2.2.2.2.1 (by decide)).1⟩

/-! ## C16: the width includes the terminator -/

/-- After lines that left no error and no blank line, at most one further
non-blank line and then blank lines give a returned error count of 0. -/
theorem forgiveN_extra_then_blanks (signedChar : Bool) (firstlen : Nat) (c : Counters)
    (extra blanks : List (List Byte))
    (he : c.errcnt = 0) (hb : c.blank = 0)
    (hextra : extra.length ≤ 1 ∧ ∀ l ∈ extra, isBlank l = false)
    (hblanks : ∀ l ∈ blanks, isBlank l = true) :
    forgiveN ((extra ++ blanks).foldl (lineStep signedChar firstlen) c) = 0 := by
  have hcount : List.countP (fun l => !isBlank l) blanks = 0 := by
    rw [List.countP_eq_zero]
    intro l hl
    simp [hblanks l hl]
  have hhead : blanks = [] ∨ ∃ b rest, blanks = b :: rest ∧ isBlank b = true := by
    cases blanks with
    | nil => left; rfl
    | cons b rest => right; exact ⟨b, rest, rfl, hblanks b (List.mem_cons_self _ _)⟩
  rw [List.foldl_append]
  obtain ⟨e1, e2⟩ := foldl_from_blank signedChar firstlen blanks
    (extra.foldl (lineStep signedChar firstlen) c) hhead
  rw [hcount, Nat.add_zero] at e1
  rw [forgiveN_eq _ (extra.foldl (lineStep signedChar firstlen) c) e2 e1]
  obtain ⟨hlen, hnb⟩ := hextra
  cases extra with
  | nil => exact forgiveN_of_errcnt_zero _ he
  | cons x xs =>
    cases xs with
    | nil =>
      rw [List.foldl_cons, List.foldl_nil]
      exact forgiveN_lineStep_first signedChar firstlen c x he hb
        ((isBlank_false_iff x).1 (hnb x (List.mem_cons_self _ _)))
    | cons y ys => simp at hlen

/-- C16: the width compared with `firstlen` counts the terminator.  For
`firstlen ≥ 2`, a buffer (shorter than `2^32` bytes) of lines that each have exactly
`firstlen - 1` bytes other than `'\r'` before the `'\n'`, followed by at most one more
non-blank terminated line of any width and then by blank lines, returns an error
count of 0; and a non-blank line that reaches the comparison with `firstlen` (no
blank line seen before it) is taken as matching (no error, `lastline` cleared)
exactly when its number of bytes other than `'\r'`, plus one, equals `firstlen`,
while after a blank line it is not compared at all. -/
theorem width_counts_terminator (signedChar : Bool) (firstlen : Nat)
    (lines extra blanks : List (List Byte)) (pre line : List Byte)
    (hfl2 : 2 ≤ firstlen)
    (hlines : ∀ l ∈ lines, (∀ ch ∈ l, ch ≠ NL) ∧ content l = firstlen - 1)
    (hextra : extra.length ≤ 1 ∧ ∀ l ∈ extra, (∀ ch ∈ l, ch ≠ NL) ∧ isBlank l = false)
    (hblanks : ∀ l ∈ blanks, (∀ ch ∈ l, ch ≠ NL) ∧ isBlank l = true)
    (hsize : (joinNL (lines ++ (extra ++ blanks))).length < U32)
    (hpre : atLineStart pre = true) (hline : ∀ ch ∈ line, ch ≠ NL)
    (hnb : isBlank line = false)
    (hsize2 : (pre ++ line ++ [NL]).length < U32) (hfl : firstlen < U32) :
    (seqlen signedChar (joinNL (lines ++ (extra ++ blanks))) firstlen).2 = 0
      ∧ ((scanCounters signedChar pre firstlen).blank = 0 →
          (((scanCounters signedChar (pre ++ line ++ [NL]) firstlen).errcnt
                = (scanCounters signedChar pre firstlen).errcnt
              ∧ (scanCounters signedChar (pre ++ line ++ [NL]) firstlen).lastline = 0)
            ↔ content line + 1 = firstlen))
      ∧ ((scanCounters signedChar pre firstlen).blank ≠ 0 →
          (scanCounters signedChar (pre ++ line ++ [NL]) firstlen).errcnt
              = (scanCounters signedChar pre firstlen).errcnt + 1
            ∧ (scanCounters signedChar (pre ++ line ++ [NL]) firstlen).lastline
              = (scanCounters signedChar pre firstlen).lastline) := by
  have hw1 : width line ≠ 1 := (isBlank_false_iff line).1 hnb
  have hstep := scanCounters_line signedChar firstlen pre line hpre hline hsize2
  rw [wrap_of_lt firstlen hfl] at hstep
  refine ⟨?_, ?_, ?_⟩
  · have hnl : ∀ l ∈ lines ++ (extra ++ blanks), ∀ ch ∈ l, ch ≠ NL := by
      intro l hl
      rcases List.mem_append.1 hl with hl | hl
      · exact (hlines l hl).1
      · rcases List.mem_append.1 hl with hl | hl
        · exact (hextra.2 l hl).1
        · exact (hblanks l hl).1
    have hnbl : ∀ l ∈ lines, isBlank l = false := fun l hl => by
      rw [isBlank_false_iff]; unfold width; rw [(hlines l hl).2]; omega
    rw [seqlen_eq_seqlenN _ _ _ hsize, seqlenN_snd_joinNL_only _ _ _ hnl, List.foldl_append]
    obtain ⟨e, eb⟩ := foldl_noblank signedChar (wrap firstlen) lines Counters.zero rfl hnbl
    apply forgiveN_extra_then_blanks signedChar (wrap firstlen) _ extra blanks _ eb
      ⟨hextra.1, fun l hl => (hextra.2 l hl).2⟩ (fun l hl => (hblanks l hl).2)
    rw [e]
    have : List.countP (isMismatch (wrap firstlen)) lines = 0 := by
      rw [List.countP_eq_zero]
      intro l hl
      have hlen := length_joinNL_ge (lines ++ (extra ++ blanks)) l (List.mem_append_left _ hl)
      have hcl : content l ≤ l.length := List.countP_le_length _
      have := (hlines l hl).2
      rw [wrap_of_lt firstlen (by omega)]
      simp only [isMismatch, width, ne_eq, decide_eq_true_eq, not_not]
      omega
    rw [this]; rfl
  · intro hnoblank
    rw [hstep]
    by_cases hf : width line = firstlen
    · rw [lineStep_match signedChar firstlen _ line hw1 hnoblank hf]
      unfold width at hf
      simp [hf]
    · rw [lineStep_mismatch signedChar firstlen _ line hw1 hnoblank hf]
      unfold width at hf
      simp [hf]
  · intro hblank
    rw [hstep, lineStep_after_blank signedChar firstlen _ line hw1 hblank]
    exact ⟨rfl, rfl⟩

theorem width_counts_terminator_witness :
    (2 ≤ 3)
      ∧ (∀ l ∈ ([[65, 67], [71, 13, 84]] : List (List Byte)),
          (∀ ch ∈ l, ch ≠ NL) ∧ content l = 3 - 1)
      ∧ (([[65, 67, 71, 84]] : List (List Byte)).length ≤ 1
          ∧ ∀ l ∈ ([[65, 67, 71, 84]] : List (List Byte)), (∀ ch ∈ l, ch ≠ NL) ∧ isBlank l = false)
      ∧ (∀ l ∈ ([[], [13]] : List (List Byte)), (∀ ch ∈ l, ch ≠ NL) ∧ isBlank l = true)
      ∧ (joinNL ([[65, 67], [71, 13, 84]] ++ ([[65, 67, 71, 84]] ++ [[], [13]]))).length < U32
      ∧ atLineStart [65, 67, 10] = true ∧ (∀ ch ∈ ([71, 13, 84] : List Byte), ch ≠ NL)
      ∧ isBlank [71, 13, 84] = false
      ∧ (([65, 67, 10] : List Byte) ++ [71, 13, 84] ++ [NL]).length < U32 ∧ 3 < U32
      ∧ (scanCounters true [65, 67, 10] 3).blank = 0
      ∧ (seqlen true (joinNL ([[65, 67], [71, 13, 84]] ++ ([[65, 67, 71, 84]] ++ [[], [13]]))) 3).2 = 0
      ∧ (((scanCounters true ([65, 67, 10] ++ [71, 13, 84] ++ [NL]) 3).errcnt
              = (scanCounters true [65, 67, 10] 3).errcnt
            ∧ (scanCounters true ([65, 67, 10] ++ [71, 13, 84] ++ [NL]) 3).lastline = 0)
          ↔ content [71, 13, 84] + 1 = 3) :=
  ⟨by decide, by decide, by decide, by decide, by decide, by decide, by decide, by decide,
    by decide, by decide, by decide,
    (width_counts_terminator true 3 [[65, 67], [71, 13, 84]] [[65, 67, 71, 84]] [[], [13]]
      [65, 67, 10] [71, 13, 84]
      (by decide) (by decide) (by decide) (by decide) (by decide) (by decide) (by decide)
      (by decide) (by decide) (by decide)).1,
    (width_counts_terminator true 3 [[65, 67], [71, 13, 84]] [[65, 67, 71, 84]] [[], [13]]
      [65, 67, 10] [71, 13, 84]
      (by decide) (by decide) (by decide) (by decide) (by decide) (by decide) (by decide)
      (by decide) (by decide) (by decide)).2.1 (by decide)⟩

/-! ## C17: no counter wraps -/

theorem runN_bounded (signedChar : Bool) (firstlen : Nat) (str : List Byte) :
    ∀ (c : Counters) (k : Nat), c.Bounded k →
      (runN signedChar firstlen c str).Bounded (k + str.length) := by
  induction str with
  | nil => intro c k h; exact h
  | cons ch str ih =>
    intro c k h
    rw [runN_cons, List.length_cons]
    have := ih _ (k + 1) (bodyN_bounded signedChar firstlen c ch k h)
    rw [show k + (str.length + 1) = k + 1 + str.length by omega]
    exact this

theorem zero_bounded : Counters.zero.Bounded 0 := by
  simp [Counters.Bounded, Counters.zero]

/-- C17: with the counters 32-bit unsigned as in the code, on a buffer of fewer
than `2^32` bytes no counter wraps.  After every prefix of the buffer each of
`linelen`, `seqlen`, `blank`, `errcnt` is at most the number of bytes consumed and
the counters are those of the unbounded computation; at the next byte the
incremented `linelen` is at least 1 (so the decrement for `'\r'` never meets 0) and
the loop body agrees with its unbounded form; the end-of-scan decrement changes
`errcnt` only when it is 1; hence the returned pair is the one computed with
unbounded natural numbers (on the `uint32_t` value of `firstlen`). -/
theorem counters_never_wrap (signedChar : Bool) (str : List Byte) (firstlen : Nat)
    (hsize : str.length < U32) :
    (∀ pre post : List Byte, str = pre ++ post →
        (scanLoop signedChar (wrap firstlen) pre.length pre Counters.zero).Bounded pre.length
          ∧ scanLoop signedChar (wrap firstlen) pre.length pre Counters.zero
              = runN signedChar (wrap firstlen) Counters.zero pre
          ∧ ∀ (ch : Byte) (rest : List Byte), post = ch :: rest →
              1 ≤ wrap ((scanLoop signedChar (wrap firstlen) pre.length pre Counters.zero).linelen + 1)
                ∧ body signedChar (wrap firstlen)
                      (scanLoop signedChar (wrap firstlen) pre.length pre Counters.zero) ch
                    = bodyN signedChar (wrap firstlen)
                      (scanLoop signedChar (wrap firstlen) pre.length pre Counters.zero) ch)
      ∧ (forgive (scanCounters signedChar str firstlen) ≠ (scanCounters signedChar str firstlen).errcnt
          → (scanCounters signedChar str firstlen).errcnt = 1
              ∧ forgive (scanCounters signedChar str firstlen) = 0)
      ∧ seqlen signedChar str firstlen = seqlenN signedChar str (wrap firstlen)
      ∧ (firstlen < U32 → seqlen signedChar str firstlen = seqlenN signedChar str firstlen) := by
  refine ⟨?_, ?_, seqlen_eq_seqlenN signedChar str firstlen hsize, ?_⟩
  · intro pre post hstr
    have hlen : pre.length + post.length < U32 := by
      rw [hstr, List.length_append] at hsize; exact hsize
    have heq := scanLoop_eq_runN signedChar (wrap firstlen) pre Counters.zero 0 zero_bounded
      (by omega)
    have hb := runN_bounded signedChar (wrap firstlen) pre Counters.zero 0 zero_bounded
    rw [Nat.zero_add] at hb
    rw [heq]
    refine ⟨hb, rfl, ?_⟩
    intro ch rest hpost
    have hlen2 : pre.length + 1 < U32 := by
      rw [hpost, List.length_cons] at hlen; omega
    constructor
    · rw [wrap_of_lt _ (by have := hb.1; omega)]
      omega
    · exact body_eq_bodyN signedChar (wrap firstlen) _ ch pre.length hb hlen2
  · intro h
    rw [forgive_eq_forgiveN, forgiveN_val] at h ⊢
    by_cases hc : (scanCounters signedChar str firstlen).lastline = 1
        ∧ (scanCounters signedChar str firstlen).errcnt = 1
    · rw [if_pos hc]; exact ⟨hc.2, rfl⟩
    · rw [if_neg hc] at h; exact absurd rfl h
  · intro hfl
    have h := seqlen_eq_seqlenN signedChar str firstlen hsize
    rw [wrap_of_lt firstlen hfl] at h
    exact h

theorem counters_never_wrap_witness :
    ([65, 13, 10, 13, 10, 71, 10] : List Byte).length < U32
      ∧ seqlen true [65, 13, 10, 13, 10, 71, 10] 2 = seqlenN true [65, 13, 10, 13, 10, 71, 10] (wrap 2) :=
  ⟨by decide, (counters_never_wrap true [65, 13, 10, 13, 10, 71, 10] 2 (by decide)).2.2.1⟩

/-! ## C18: bounds on the returned pair -/

theorem foldl_errcnt_le (signedChar : Bool) (firstlen : Nat) (lines : List (List Byte)) :
    ∀ c : Counters,
      (lines.foldl (lineStep signedChar firstlen) c).errcnt
        ≤ c.errcnt + lines.countP (fun l => !isBlank l) := by
  induction lines with
  | nil => intro c; simp
  | cons l ls ih =>
    intro c
    rw [List.foldl_cons, List.countP_cons]
    refine le_trans (ih _) ?_
    by_cases hl : width l = 1
    · rw [lineStep_blank signedChar firstlen c l hl]
      simp [isBlank, hl]
    · have hnb : (if (!isBlank l) = true then 1 else 0) = 1 := by simp [isBlank, hl]
      rw [hnb]
      unfold lineStep
      split_ifs <;> dsimp only <;> omega

theorem count_nl_joinNL (lines : List (List Byte)) (h : ∀ l ∈ lines, ∀ ch ∈ l, ch ≠ NL) :
    (joinNL lines).count NL = lines.length := by
  induction lines with
  | nil => rfl
  | cons l ls ih =>
    have hl : l.count NL = 0 := by
      rw [List.count_eq_zero]
      intro hmem
      exact h l (List.mem_cons_self _ _) NL hmem rfl
    rw [joinNL_cons, List.count_append, List.count_append, hl,
      ih (fun m hm => h m (List.mem_cons_of_mem _ hm))]
    simp
    omega

theorem count_nl_eq_length_termLines (str : List Byte) :
    str.count NL = (termLines str).length := by
  obtain ⟨h1, h2, h3⟩ := splitNL_spec str
  have hr : (lastPart str).count NL = 0 := by
    rw [List.count_eq_zero]
    intro hmem
    exact h3 NL hmem rfl
  have h : str.count NL = (joinNL (termLines str) ++ lastPart str).count NL := by rw [h1]
  rw [h, List.count_append, hr, count_nl_joinNL _ h2, Nat.add_zero]

theorem residues_add_count_le (signedChar : Bool) (str : List Byte) :
    residues signedChar str + str.count NL + str.count CR ≤ str.length := by
  induction str with
  | nil => simp [residues]
  | cons ch str ih =>
    have hkinds : (if isResidue signedChar ch = true then 1 else 0)
        + (if (ch == NL) = true then 1 else 0) + (if (ch == CR) = true then 1 else 0) ≤ 1 := by
      by_cases hr : isResidue signedChar ch = true
      · have h1 := ne_nl_of_isResidue signedChar ch hr
        have h2 := ne_cr_of_isResidue signedChar ch hr
        simp [hr, h1, h2]
      · have hr2 : isResidue signedChar ch = false := by simpa using hr
        by_cases hnl : ch = NL
        · have hcr : ¬ (NL = CR) := by decide
          simp [hnl, not_isResidue_nl, hcr]
        · by_cases hcr : ch = CR
          · have hne : ¬ (CR = NL) := by decide
            simp [hcr, not_isResidue_cr, hne]
          · simp [hr2, hnl, hcr]
    rw [residues_cons, List.count_cons, List.count_cons, List.length_cons]
    omega

/-- C18: for every buffer (shorter than `2^32` bytes) and every expected line
length, the returned error count is at most the number of non-blank terminated
lines, hence at most the number of `'\n'` bytes and 0 for a buffer without `'\n'`;
and the sequence length plus the numbers of `'\n'` and `'\r'` bytes is at most the
length of the buffer. -/
theorem result_bounds (signedChar : Bool) (str : List Byte) (firstlen : Nat)
    (hsize : str.length < U32) :
    (seqlen signedChar str firstlen).2 ≤ (termLines str).countP (fun l => !isBlank l)
      ∧ (termLines str).countP (fun l => !isBlank l) ≤ str.count NL
      ∧ ((∀ ch ∈ str, ch ≠ NL) → (seqlen signedChar str firstlen).2 = 0)
      ∧ (seqlen signedChar str firstlen).1 + str.count NL + str.count CR ≤ str.length := by
  have h1 : (seqlen signedChar str firstlen).2 ≤ (termLines str).countP (fun l => !isBlank l) := by
    rw [seqlen_eq_seqlenN _ _ _ hsize, seqlenN_snd]
    refine le_trans (forgiveN_le _) ?_
    have := foldl_errcnt_le signedChar (wrap firstlen) (termLines str) Counters.zero
    simpa [Counters.zero] using this
  have h2 : (termLines str).countP (fun l => !isBlank l) ≤ str.count NL := by
    rw [count_nl_eq_length_termLines]
    exact List.countP_le_length _
  refine ⟨h1, h2, ?_, ?_⟩
  · intro hno
    have hz : str.count NL = 0 := by
      rw [List.count_eq_zero]
      intro hmem
      exact hno NL hmem rfl
    omega
  · rw [seqlen_eq_seqlenN _ _ _ hsize, seqlenN_fst]
    exact residues_add_count_le signedChar str

theorem result_bounds_witness :
    ([65, 13, 10, 13, 10, 71, 32, 10, 84] : List Byte).length < U32
      ∧ ((seqlen true [65, 13, 10, 13, 10, 71, 32, 10, 84] 2).2
            ≤ (termLines [65, 13, 10, 13, 10, 71, 32, 10, 84]).countP (fun l => !isBlank l)
          ∧ (termLines [65, 13, 10, 13, 10, 71, 32, 10, 84]).countP (fun l => !isBlank l)
            ≤ ([65, 13, 10, 13, 10, 71, 32, 10, 84] : List Byte).count NL
          ∧ ((∀ ch ∈ ([65, 13, 10, 13, 10, 71, 32, 10, 84] : List Byte), ch ≠ NL) →
              (seqlen true [65, 13, 10, 13, 10, 71, 32, 10, 84] 2).2 = 0)
          ∧ (seqlen true [65, 13, 10, 13, 10, 71, 32, 10, 84] 2).1
              + ([65, 13, 10, 13, 10, 71, 32, 10, 84] : List Byte).count NL
              + ([65, 13, 10, 13, 10, 71, 32, 10, 84] : List Byte).count CR
            ≤ ([65, 13, 10, 13, 10, 71, 32, 10, 84] : List Byte).length) :=
  ⟨by decide, result_bounds true [65, 13, 10, 13, 10, 71, 32, 10, 84] 2 (by decide)⟩

end FastaFaidx
